import Mathlib

/-!
Verification of the 1-D CPAB transformer backend (cpab/backend/numpy/transformer.py).

The scalar type of the arrays is modelled by a linear ordered field `K` with a
floor function; the analytic primitives `np.exp` / `np.log` are supplied by a
context record `An K`, instantiated with `Real.exp` / `Real.log` where their
analytic properties matter and with rational dummies where they are never
reached (so that concrete runs evaluate).  Numpy arrays are modelled by lists;
the boolean-mask writes `buf[~done] = v` are modelled by the `maskWrite`
function, and the lockstep re-slicing `x[~valid]` by filtering the list of
per-point records.  The float-typed cell column of the trace is kept as `ℤ`.
-/

set_option linter.unusedSectionVars false
set_option linter.unusedVariables false

namespace Cpab

/-- Analytic primitives of the backend (np.exp, np.log). -/
structure An (K : Type) where
  exp : K → K
  log : K → K

/-- The parameter object: domain bounds, cell count, basis matrix of shape
(2*nc) x d, and the two step counts of the numeric integrator.  The A/r
precompute cache is semantically transparent (get_affine returns the same
coefficients either way) and is modelled by direct resolution. -/
structure Params (K : Type) where
  xmin : K
  xmax : K
  nc : ℕ
  B : List (List K)
  nSteps1 : ℕ
  nSteps2 : ℕ

/-- Per-point state of the cell-hopping integrator: position, remaining time,
batch row (the filtered params.r entry), and the tracked cell index. -/
structure Pt (K : Type) where
  x : K
  t : K
  r : ℕ
  c : ℤ
  deriving DecidableEq, Repr

variable {K : Type} [LinearOrderedField K] [FloorRing K]

/-- eps = np.finfo(np.float32).eps = 2^-23. -/
def eps : K := 1 / 8388608

/-- Dot product of two coefficient rows. -/
def dotL (u v : List K) : K := (List.zipWith (fun a b => a * b) u v).sum

/-- right_boundary(c) = xmin + (c+1)*(xmax-xmin)/nc + eps. -/
def right_boundary (P : Params K) (c : ℤ) : K :=
  P.xmin + ((c : K) + 1) * (P.xmax - P.xmin) / (P.nc : K) + eps

/-- left_boundary(c) = xmin + c*(xmax-xmin)/nc - eps. -/
def left_boundary (P : Params K) (c : ℤ) : K :=
  P.xmin + (c : K) * (P.xmax - P.xmin) / (P.nc : K) - eps

/-- get_cell: np.clip(floor((x - xmin)/(xmax - xmin)*nc), 0, nc-1); np.clip
applies the lower bound first, then the upper bound. -/
def get_cell (P : Params K) (x : K) : ℤ :=
  min (max ⌊(x - P.xmin) / (P.xmax - P.xmin) * (P.nc : K)⌋ 0) ((P.nc : ℤ) - 1)

/-- A[r, c, 0]: the slope coefficient of cell c for batch row r, where
A = B.dot(theta.T).T.reshape(n_batch, -1, 2), i.e. row 2c of B dotted with
theta row r. -/
def coeff_a (P : Params K) (th : List (List K)) (r : ℕ) (c : ℤ) : K :=
  dotL (P.B.getD (2 * c).toNat []) (th.getD r [])

/-- A[r, c, 1]: the offset coefficient of cell c for batch row r (row 2c+1 of B). -/
def coeff_b (P : Params K) (th : List (List K)) (r : ℕ) (c : ℤ) : K :=
  dotL (P.B.getD ((2 * c).toNat + 1) []) (th.getD r [])

/-- get_velocity: a*x + b with (a,b) looked up at the recomputed cell of x. -/
def get_velocity (P : Params K) (th : List (List K)) (x : K) (r : ℕ) : K :=
  coeff_a P th r (get_cell P x) * x + coeff_b P th r (get_cell P x)

/-- get_psi: the closed-form within-cell flow, branching on a == 0.  The numpy
source computes both lanes eagerly and selects with np.where; in the exact
semantics the selected lane has the same value as this guarded branch (see
get_psi_eager below for the model of the eager evaluation). -/
def get_psi (P : Params K) (F : An K) (th : List (List K)) (x t : K) (r : ℕ) : K :=
  let c := get_cell P x
  let a := coeff_a P th r c
  let b := coeff_b P th r c
  if a = 0 then x + t * b else F.exp (t * a) * (x + b / a) - b / a

/-- get_hit_time: time for the flow from x to reach the boundary in the
direction of travel, branching on a == 0. -/
def get_hit_time (P : Params K) (F : An K) (th : List (List K)) (x : K) (r : ℕ) : K :=
  let c := get_cell P x
  let v := get_velocity P th x r
  let xc := if 0 ≤ v then right_boundary P c else left_boundary P c
  let a := coeff_a P th r c
  let b := coeff_b P th r c
  if a = 0 then (xc - x) / b else F.log ((xc + b / a) / (x + b / a)) / a

/-! ### Instrumented models of the eager numpy evaluation (for the
branch-then-select analysis).  The source computes both lanes of np.where
before selecting, under np.seterr(divide="ignore", invalid="ignore"); the
Bool component records whether an invalid floating operation (division by
zero, or log of a non-positive argument) is performed while evaluating the
lanes eagerly. -/

/-- Eager model of get_psi: value selected by np.where, plus whether the
eager evaluation of the a != 0 lane performed the division b / a with a == 0. -/
def get_psi_eager (P : Params K) (F : An K) (th : List (List K)) (x t : K) (r : ℕ) :
    K × Bool :=
  let c := get_cell P x
  let a := coeff_a P th r c
  let b := coeff_b P th r c
  let x1 := x + t * b
  let x2 := F.exp (t * a) * (x + b / a) - b / a
  (if a = 0 then x1 else x2, decide (a = 0))

/-- Eager model of get_hit_time: value selected by np.where, plus whether any
eagerly evaluated lane performed an invalid operation: division b / a with
a == 0, division by b with b == 0 in the a == 0 lane, or a log of a
non-positive argument. -/
def get_hit_time_eager (P : Params K) (F : An K) (th : List (List K)) (x : K) (r : ℕ) :
    K × Bool :=
  let c := get_cell P x
  let v := get_velocity P th x r
  let xc := if 0 ≤ v then right_boundary P c else left_boundary P c
  let a := coeff_a P th r c
  let b := coeff_b P th r c
  let x1 := (xc - x) / b
  let x2 := F.log ((xc + b / a) / (x + b / a)) / a
  (if a = 0 then x1 else x2,
    decide (a = 0) || decide (b = 0) || decide ((xc + b / a) / (x + b / a) ≤ 0))

/-! ### The cell-hopping loop of integrate_closed_form and its trace variant -/

/-- The validity test of one loop iteration:
cond1 = left <= psi <= right (boundaries of the tracked cell),
cond2 = v >= 0 and c == nc-1, cond3 = v <= 0 and c == 0. -/
def validB (P : Params K) (F : An K) (th : List (List K)) (p : Pt K) : Bool :=
  let v := get_velocity P th p.x p.r
  let psi := get_psi P F th p.x p.t p.r
  (decide (left_boundary P p.c ≤ psi) && decide (psi ≤ right_boundary P p.c)) ||
  (decide (0 ≤ v) && decide (p.c = (P.nc : ℤ) - 1)) ||
  (decide (v ≤ 0) && decide (p.c = 0))

/-- The state update applied to a not-yet-valid point, in source order:
t -= get_hit_time(x) (at the pre-update position), x = clip(psi, left, right),
c = c+1 if v >= 0 else c-1 (np.clip(a, lo, hi) = min(max(a, lo), hi)). -/
def updP (P : Params K) (F : An K) (th : List (List K)) (p : Pt K) : Pt K :=
  let v := get_velocity P th p.x p.r
  let psi := get_psi P F th p.x p.t p.r
  { x := min (max psi (left_boundary P p.c)) (right_boundary P p.c)
    t := p.t - get_hit_time P F th p.x p.r
    r := p.r
    c := if 0 ≤ v then p.c + 1 else p.c - 1 }

/-- buf[~done] = ys: write the entries of ys into the false slots of done. -/
def maskWrite : List Bool → List α → List α → List α
  | [], _, _ => []
  | _ :: _, [], _ => []
  | true :: ds, p :: ps, ys => p :: maskWrite ds ps ys
  | false :: ds, p :: ps, [] => p :: maskWrite ds ps []
  | false :: ds, _ :: ps, y :: ys => y :: maskWrite ds ps ys

/-- Loop state: done flags and result buffer over the original point order,
plus the shrinking active subset (x, t, params.r and c re-sliced in lockstep,
modelled as a list of records). -/
structure VSt (K : Type) (β : Type) where
  done : List Bool
  buf : List β
  active : List (Pt K)

/-- One iteration of the cell-hopping loop, generic in the value recorded for
each point (`rec p = psi` for integrate_closed_form, `rec p = (psi, t, c)` for
the trace variant): write back into the buffers, stop if all active points are
valid, otherwise filter and update. -/
def stepRec (P : Params K) (F : An K) (th : List (List K)) (rec : Pt K → β)
    (s : VSt K β) : Sum (List β) (VSt K β) :=
  let buf1 := maskWrite s.done s.buf (s.active.map rec)
  let done1 := maskWrite s.done s.done (s.active.map (validB P F th))
  if s.active.all (validB P F th) then .inl buf1
  else .inr ⟨done1, buf1,
    (s.active.filter (fun p => ! validB P F th p)).map (updP P F th)⟩

/-- Errors of the embedded integrators.  The source raises a bare exception
when the loop counter exceeds nc (nonTermination); no DomainMismatch error is
ever produced by the source, the constructor exists so that the error-handling
claims are statable. -/
inductive Err where
  | nonTermination
  | domainMismatch
  deriving DecidableEq, Repr

/-- The while-True loop with the late-checked counter.  The source counts
cont = 0, 1, ... upward and raises when cont > nc after the body; here `fuel`
is the remaining allowance nc - cont, so the raise is the fuel-0 case (at most
nc + 1 iterations of the body run, exactly as in the source). -/
def loopRec (P : Params K) (F : An K) (th : List (List K)) (rec : Pt K → β) :
    VSt K β → ℕ → Except Err (List β)
  | s, fuel =>
    match stepRec P F th rec s with
    | .inl out => .ok out
    | .inr s1 =>
      match fuel with
      | 0 => .error .nonTermination
      | fuel' + 1 => loopRec P F th rec s1 fuel'

/-- Unbounded iteration of the loop body (for stating the termination bound):
iterStep n s runs at most n iterations and reports the final buffer if the
loop finishes within them. -/
def iterStep (P : Params K) (F : An K) (th : List (List K)) (rec : Pt K → β) :
    ℕ → VSt K β → Sum (List β) (VSt K β)
  | 0, s => .inr s
  | n + 1, s =>
    match stepRec P F th rec s with
    | .inl out => .inl out
    | .inr s1 => iterStep P F th rec n s1

/-- "res reflects the outcome st of the unbounded iteration": a finished
iteration means res returned exactly its buffer, a still-running one means res
is the fatal non-termination error. -/
def reflects : Sum (List β) (VSt K β) → Except Err (List β) → Prop
  | .inl out, res => res = .ok out
  | .inr _, res => res = .error .nonTermination

/-- batch_effect + params.r + t = ones + c = get_cell: the point template is
broadcast over the batch rows (batch-major flattening) and each flattened
point records its owning batch row r. -/
def initPts (P : Params K) (xs : List K) (nb : ℕ) : List (Pt K) :=
  ((List.range nb).map (fun i => xs.map (fun x => ⟨x, 1, i, get_cell P x⟩))).flatten

/-- integrate_closed_form: phi = np.empty_like(x) (modelled as zeros, the
content of unwritten slots never reaches the output), done = all-false,
then the cell-hopping loop with counter bound nc. -/
def integrate_closed_form (P : Params K) (F : An K) (xs : List K)
    (th : List (List K)) : Except Err (List K) :=
  let pts := initPts P xs th.length
  loopRec P F th (fun p => get_psi P F th p.x p.t p.r)
    ⟨List.replicate pts.length false, List.replicate pts.length 0, pts⟩ P.nc

/-- integrate_closed_form_trace: identical loop, recording (psi, t, c) for
each point at the moment it is finalized. -/
def integrate_closed_form_trace (P : Params K) (F : An K) (xs : List K)
    (th : List (List K)) : Except Err (List (K × K × ℤ)) :=
  let pts := initPts P xs th.length
  loopRec P F th (fun p => (get_psi P F th p.x p.t p.r, p.t, p.c))
    ⟨List.replicate pts.length false, List.replicate pts.length (0, 0, 0), pts⟩ P.nc

/-! ### Per-point view of the same loop -/

/-- The loop body restricted to one point. -/
def stepP (P : Params K) (F : An K) (th : List (List K)) (rec : Pt K → β)
    (p : Pt K) : Sum β (Pt K) :=
  if validB P F th p then .inl (rec p) else .inr (updP P F th p)

/-- The loop run for a single point, same fuel discipline as loopRec. -/
def loopP (P : Params K) (F : An K) (th : List (List K)) (rec : Pt K → β) :
    Pt K → ℕ → Except Err β
  | p, fuel =>
    match stepP P F th rec p with
    | .inl out => .ok out
    | .inr p1 =>
      match fuel with
      | 0 => .error .nonTermination
      | fuel' + 1 => loopP P F th rec p1 fuel'

/-- Per-point iteration without finalization: runP n p is the still-active
state after n update rounds, or none if the point became valid on the way
(used to quantify over the states that reach the hit-time computation). -/
def runP (P : Params K) (F : An K) (th : List (List K)) :
    ℕ → Pt K → Option (Pt K)
  | 0, p => some p
  | n + 1, p =>
    if validB P F th p then none else runP P F th n (updP P F th p)

/-- Number of false entries of a mask (the number of not-yet-done slots). -/
def countFalse : List Bool → ℕ
  | [] => 0
  | true :: ds => countFalse ds
  | false :: ds => countFalse ds + 1

/-- mapM over Except, written out so that case analysis is direct. -/
def mapE (f : α → Except Err β) : List α → Except Err (List β)
  | [] => .ok []
  | a :: as =>
    match f a with
    | .error e => .error e
    | .ok b =>
      match mapE f as with
      | .error e => .error e
      | .ok bs => .ok (b :: bs)

/-! ### The numeric (midpoint) integrator -/

/-- get_phi_numeric: nSteps2 midpoint sub-steps, recomputing the cell and the
velocity at every sub-step (the two dead stores `c = get_cell(...)` of the
source bind a variable that is never read: get_velocity recomputes its own
cell). -/
def get_phi_numeric (P : Params K) (th : List (List K)) (x t : K) (r : ℕ) : K :=
  let deltaT := t / (P.nSteps2 : K)
  (List.range P.nSteps2).foldl
    (fun yn _ =>
      yn + deltaT * get_velocity P th (yn + deltaT / 2 * get_velocity P th yn r) r) x

/-- One outer step of integrate_numeric: the closed-form psi if it stays in
the cell of xPrev, otherwise the midpoint sub-stepped value (the tracked c of
the source equals get_cell(xPrev) at the top of every iteration). -/
def integrate_numeric_step (P : Params K) (F : An K) (th : List (List K))
    (deltaT : K) (r : ℕ) (xPrev : K) : K :=
  let xTemp := get_psi P F th xPrev deltaT r
  if get_cell P xPrev = get_cell P xTemp then xTemp
  else get_phi_numeric P th xPrev deltaT r

/-- integrate_numeric: t = 1, deltaT = 1/nSteps1, nSteps1 outer steps per
point (flattened batch-major like the closed form). -/
def integrate_numeric (P : Params K) (F : An K) (xs : List K)
    (th : List (List K)) : List K :=
  (initPts P xs th.length).map (fun p =>
    (List.range P.nSteps1).foldl
      (fun y _ => integrate_numeric_step P F th (1 / (P.nSteps1 : K)) p.r y) p.x)

/-- Modelled from the spec, section 4.5: the pure fixed-step midpoint method in
which EVERY outer step is the nSteps2-sub-step midpoint update (the claimed
behaviour of integrate_numeric, for comparison with the source's psi
shortcut). -/
def integrate_numeric_midpoint (P : Params K) (th : List (List K))
    (xs : List K) : List K :=
  (initPts P xs th.length).map (fun p =>
    (List.range P.nSteps1).foldl
      (fun y _ => get_phi_numeric P th y (1 / (P.nSteps1 : K)) p.r) p.x)

/-! ### The closed-form derivative propagator -/

/-- derivative_psi_theta: sensitivity of the within-cell flow to theta_k,
ak = B[2c, k], bk = B[2c+1, k]. -/
def derivative_psi_theta (P : Params K) (F : An K) (th : List (List K))
    (x t : K) (r k : ℕ) : K :=
  let c := get_cell P x
  let a := coeff_a P th r c
  let b := coeff_b P th r c
  let ak := (P.B.getD (2 * c).toNat []).getD k 0
  let bk := (P.B.getD ((2 * c).toNat + 1) []).getD k 0
  if a = 0 then t * (x * ak + bk)
  else ak * t * F.exp (a * t) * (x + b / a) +
    (F.exp (t * a) - 1) * (bk * a - ak * b) / a ^ 2

/-- derivative_phi_time: sensitivity of the flow to elapsed time (the k
argument of the source is unused in its body and kept for signature parity). -/
def derivative_phi_time (P : Params K) (F : An K) (th : List (List K))
    (x t : K) (r k : ℕ) : K :=
  let c := get_cell P x
  let a := coeff_a P th r c
  let b := coeff_b P th r c
  if a = 0 then b else F.exp (t * a) * (a * x + b)

/-- derivative_thit_theta: sensitivity of the hit time to theta_k, evaluated
at the recomputed cell of x. -/
def derivative_thit_theta (P : Params K) (F : An K) (th : List (List K))
    (x : K) (r k : ℕ) : K :=
  let c := get_cell P x
  let a := coeff_a P th r c
  let b := coeff_b P th r c
  let ak := (P.B.getD (2 * c).toNat []).getD k 0
  let bk := (P.B.getD ((2 * c).toNat + 1) []).getD k 0
  let v := get_velocity P th x r
  let xc := if 0 ≤ v then right_boundary P c else left_boundary P c
  if a = 0 then (x - xc) * bk / b ^ 2
  else (-ak) * F.log ((a * xc + b) / (a * x + b)) / a ^ 2 +
    (x - xc) * (bk * a - ak * b) / (a * (a * x + b) * (a * xc + b))

/-- Per-point state of the cell walk of derivative_closed_form: accumulated
hit-time sensitivity, working position, working cell, target cell of the
trace, batch row. -/
structure WSt (K : Type) where
  dcum : K
  xm : K
  c : ℤ
  cm : ℤ
  r : ℕ
  deriving DecidableEq, Repr

/-- The body of the cell walk, with the ~valid masking built in (for a point
with c == cm the step is sign(0) = 0 and both masked writes skip it, so the
record is unchanged): dthit_dtheta_cum -= derivative_thit_theta(xm) at the old
xm, then xm moves to the boundary in the step direction, then c += step. -/
def updW (P : Params K) (F : An K) (th : List (List K)) (k : ℕ) (w : WSt K) : WSt K :=
  if w.c = w.cm then w
  else
    { dcum := w.dcum - derivative_thit_theta P F th w.xm w.r k
      xm := if (w.cm - w.c).sign = 1 then right_boundary P w.c else left_boundary P w.c
      c := w.c + (w.cm - w.c).sign
      cm := w.cm
      r := w.r }

/-- Distance of a walk record from its target cell (the termination measure of
the walk loop). -/
def walkMeasure (w : WSt K) : ℕ := (w.cm - w.c).natAbs

/-- One masked update strictly shrinks the distance to the target cell of an
unfinished record (needed to justify the source's uncapped while-loop). -/
theorem walkMeasure_updW_lt (P : Params K) (F : An K) (th : List (List K))
    (k : ℕ) (w : WSt K) (h : ¬ w.c = w.cm) :
    walkMeasure (updW P F th k w) < walkMeasure w := by
  unfold walkMeasure updW
  rw [if_neg h]
  simp only
  rcases lt_trichotomy w.c w.cm with hlt | heq | hgt
  · have hs : (w.cm - w.c).sign = 1 := Int.sign_eq_one_of_pos (by omega)
    rw [hs]; omega
  · exact absurd heq h
  · have hs : (w.cm - w.c).sign = -1 := Int.sign_eq_neg_one_of_neg (by omega)
    rw [hs]; omega

/-- The masked update never grows the distance (finished records are fixed). -/
theorem walkMeasure_updW_le (P : Params K) (F : An K) (th : List (List K))
    (k : ℕ) (w : WSt K) :
    walkMeasure (updW P F th k w) ≤ walkMeasure w := by
  by_cases h : w.c = w.cm
  · unfold updW; rw [if_pos h]
  · exact (walkMeasure_updW_lt P F th k w h).le

/-- The update never grows the total distance over a list of records. -/
theorem walkMeasure_sum_le (P : Params K) (F : An K) (th : List (List K))
    (k : ℕ) : ∀ (ws : List (WSt K)),
    ((ws.map (updW P F th k)).map walkMeasure).sum ≤ (ws.map walkMeasure).sum := by
  intro ws
  induction ws with
  | nil => simp
  | cons v vs ihv =>
    simp only [List.map_cons, List.sum_cons]
    exact Nat.add_le_add (walkMeasure_updW_le P F th k v) ihv

/-- Sum of the distances over the active-point list; the strict decrease when
some record is unfinished. -/
theorem walkMeasure_sum_lt (P : Params K) (F : An K) (th : List (List K))
    (k : ℕ) : ∀ (ws : List (WSt K)), (∃ w ∈ ws, ¬ w.c = w.cm) →
    ((ws.map (updW P F th k)).map walkMeasure).sum < (ws.map walkMeasure).sum := by
  intro ws
  induction ws with
  | nil => rintro ⟨w, hw, _⟩; cases hw
  | cons w ws ih =>
    rintro ⟨w', hw', hne⟩
    simp only [List.map_cons, List.sum_cons]
    rcases List.mem_cons.mp hw' with rfl | hmem
    · have h1 := walkMeasure_updW_lt P F th k w' hne
      have h2 := walkMeasure_sum_le P F th k ws
      omega
    · have h1 := ih ⟨w', hmem, hne⟩
      have h2 := walkMeasure_updW_le P F th k w
      omega

/-- The vectorized cell walk of derivative_closed_form: while not all points
have reached their target cell, apply the masked update to every point.  The
source's loop has no iteration cap; termination holds because the total
distance to the target cells strictly decreases. -/
def walkV (P : Params K) (F : An K) (th : List (List K)) (k : ℕ) :
    List (WSt K) → List (WSt K)
  | ws =>
    if h : ws.all (fun w => w.c == w.cm) then ws
    else walkV P F th k (ws.map (updW P F th k))
termination_by ws => (ws.map walkMeasure).sum
decreasing_by
  refine walkMeasure_sum_lt P F th k ws ?_
  simp only [List.all_eq_true, beq_iff_eq] at h
  push_neg at h
  exact h

/-- The number of iterations the vectorized walk performs. -/
def walkCount (P : Params K) (F : An K) (th : List (List K)) (k : ℕ) :
    List (WSt K) → ℕ
  | ws =>
    if h : ws.all (fun w => w.c == w.cm) then 0
    else 1 + walkCount P F th k (ws.map (updW P F th k))
termination_by ws => (ws.map walkMeasure).sum
decreasing_by
  refine walkMeasure_sum_lt P F th k ws ?_
  simp only [List.all_eq_true, beq_iff_eq] at h
  push_neg at h
  exact h

/-- The walk of a single record, run to its target cell. -/
def walkP (P : Params K) (F : An K) (th : List (List K)) (k : ℕ) :
    WSt K → WSt K
  | w => if h : w.c = w.cm then w else walkP P F th k (updW P F th k w)
termination_by w => walkMeasure w
decreasing_by exact walkMeasure_updW_lt P F th k w h

/-- derivative_closed_form: run the tracing integrator, then for every
parameter component k replay the cell path of every point (the vectorized
walk) and combine with the two local derivatives at the final segment:
dphi_dtheta = dpsi_dtheta + dpsi_dtime * dthit_dtheta_cum.  The gradient
tensor is returned k-major: der[k] is the list over flattened points. -/
def derivative_closed_form (P : Params K) (F : An K) (xs : List K)
    (th : List (List K)) : Except Err (List K × List (List K)) :=
  match integrate_closed_form_trace P F xs th with
  | .error e => .error e
  | .ok recs =>
    let pts := initPts P xs th.length
    let d := (th.getD 0 []).length
    let phi := recs.map (fun rc => rc.1)
    let ws0 : List (WSt K) := (pts.zip recs).map
      (fun pr => ⟨0, pr.1.x, get_cell P pr.1.x, pr.2.2.2, pr.1.r⟩)
    let der := (List.range d).map (fun k =>
      let fin := walkV P F th k ws0
      (fin.zip recs).map (fun wr =>
        derivative_psi_theta P F th wr.1.xm wr.2.2.1 wr.1.r k +
        derivative_phi_time P F th wr.1.xm wr.2.2.1 wr.1.r k * wr.1.dcum))
    .ok (phi, der)

/-! ### Concrete configurations used by the witnesses and counterexamples -/

/-- A concrete configuration over ℚ: domain [0, 1] split into two cells, with
a 4 x 1 basis matrix resolving theta = [1] to the constant field a = 0, b = 1
in both cells. -/
def cfgQ : Params ℚ := ⟨0, 1, 2, [[0], [1], [0], [1]], 1, 1⟩

/-- Rational stand-in for the analytic context; its exp/log are never reached
on the a == 0 paths exercised by the rational witnesses. -/
def anQ : An ℚ := ⟨fun _ => 0, fun _ => 0⟩

/-- A shape-mismatched configuration: the basis matrix has 6 rows (three
cells' worth of coefficients) while nc = 2. -/
def cfgMM : Params ℚ := ⟨0, 1, 2, [[0], [0], [0], [0], [0], [0]], 1, 1⟩

/-- A one-cell configuration over ℚ with the zero field. -/
def cfgQ1 : Params ℚ := ⟨0, 1, 1, [[0], [0]], 1, 1⟩

/-- The real analytic context of the source: np.exp and np.log. -/
noncomputable def anR : An ℝ := ⟨Real.exp, Real.log⟩

/-- A one-cell configuration over ℝ whose field resolves theta = [1] to
v(x) = x (a = 1, b = 0), with a single outer and a single inner step. -/
noncomputable def cfgR : Params ℝ := ⟨0, 1, 1, [[1], [0]], 1, 1⟩

/-- A three-cell configuration over ℝ whose field resolves theta = [1] to the
constant velocity a = 0, b = 1 in every cell. -/
noncomputable def cfgR3 : Params ℝ := ⟨0, 1, 3, [[0], [1], [0], [1], [0], [1]], 1, 1⟩

/-! ## Theorems -/

theorem eps_pos : (0 : K) < eps := by norm_num [eps]

/-- get_cell lands in [0, nc-1] whenever nc is positive. -/
theorem get_cell_range (P : Params K) (hnc : 0 < P.nc) (x : K) :
    0 ≤ get_cell P x ∧ get_cell P x ≤ (P.nc : ℤ) - 1 := by
  unfold get_cell
  refine ⟨le_min (le_max_right _ 0) ?_, min_le_right _ _⟩
  have h : (1 : ℤ) ≤ (P.nc : ℤ) := by exact_mod_cast hnc
  omega

/-! ### maskWrite / mapE bookkeeping -/

theorem maskWrite_length : ∀ (ds : List Bool) (ps ys : List α),
    ds.length = ps.length → (maskWrite ds ps ys).length = ds.length := by
  intro ds
  induction ds with
  | nil => intro ps ys _; simp [maskWrite]
  | cons d ds ih =>
    intro ps ys hlen
    cases ps with
    | nil => simp at hlen
    | cons p ps =>
      cases d with
      | true => simpa [maskWrite] using ih ps ys (by simpa using hlen)
      | false =>
        cases ys with
        | nil => simpa [maskWrite] using ih ps [] (by simpa using hlen)
        | cons y ys => simpa [maskWrite] using ih ps ys (by simpa using hlen)

theorem countFalse_maskWrite : ∀ (ds : List Bool) (vs : List Bool),
    countFalse ds = vs.length →
    countFalse (maskWrite ds ds vs) = countFalse vs := by
  intro ds
  induction ds with
  | nil =>
    intro vs h
    have hvs : vs = [] := List.length_eq_zero.mp (by simpa [countFalse] using h.symm)
    subst hvs
    simp [maskWrite]
  | cons d ds ih =>
    intro vs h
    cases d with
    | true => simpa [maskWrite, countFalse] using ih vs (by simpa [countFalse] using h)
    | false =>
      cases vs with
      | nil => simp [countFalse] at h
      | cons v vs =>
        cases v with
        | true =>
          simpa [maskWrite, countFalse] using ih vs (by simpa [countFalse] using h)
        | false =>
          have := ih vs (by simpa [countFalse] using h)
          simp [maskWrite, countFalse, this]

theorem countFalse_map_filter (vb : α → Bool) : ∀ (l : List α),
    countFalse (l.map vb) = (l.filter (fun p => ! vb p)).length := by
  intro l
  induction l with
  | nil => simp [countFalse]
  | cons a l ih =>
    cases h : vb a <;> simp [countFalse, List.filter_cons, h, ih]

theorem maskWrite_replicate_false : ∀ (ps ys : List α),
    ps.length = ys.length →
    maskWrite (List.replicate ps.length false) ps ys = ys := by
  intro ps
  induction ps with
  | nil =>
    intro ys h
    have hys : ys = [] := List.length_eq_zero.mp (by simpa using h.symm)
    subst hys
    simp [maskWrite]
  | cons p ps ih =>
    intro ys h
    cases ys with
    | nil => simp at h
    | cons y ys => simpa [maskWrite] using ih ys (by simpa using h)

theorem mapE_ok_of_all (f : α → Except Err β) (g : α → β) : ∀ (l : List α),
    (∀ a ∈ l, f a = .ok (g a)) → mapE f l = .ok (l.map g) := by
  intro l
  induction l with
  | nil => intro _; simp [mapE]
  | cons a l ih =>
    intro h
    have ha := h a (by simp)
    have hl := ih (fun b hb => h b (by simp [hb]))
    simp [mapE, ha, hl]

theorem mapE_error_of_exists (f : α → Except Err β) : ∀ (l : List α),
    (∀ a ∈ l, f a = .error .nonTermination ∨ ∃ b, f a = .ok b) →
    (∃ a ∈ l, f a = .error .nonTermination) →
    mapE f l = .error .nonTermination := by
  intro l
  induction l with
  | nil => rintro _ ⟨a, ha, _⟩; cases ha
  | cons a l ih =>
    rintro hshape ⟨a', ha', herr⟩
    rcases hshape a (by simp) with ha | ⟨b, hb⟩
    · simp [mapE, ha]
    · rcases List.mem_cons.mp ha' with rfl | hmem
      · rw [herr] at hb; cases hb
      · have := ih (fun c hc => hshape c (by simp [hc])) ⟨a', hmem, herr⟩
        simp [mapE, hb, this]

theorem mapE_map (f : β → Except Err γ) (g : α → β) : ∀ (l : List α),
    mapE f (l.map g) = mapE (fun a => f (g a)) l := by
  intro l
  induction l with
  | nil => simp [mapE]
  | cons a l ih => simp [mapE, ih]

theorem mapE_ok_length (f : α → Except Err β) : ∀ (l : List α) (ys : List β),
    mapE f l = .ok ys → ys.length = l.length := by
  intro l
  induction l with
  | nil => intro ys h; simp [mapE] at h; simp [← h]
  | cons a l ih =>
    intro ys h
    rw [mapE] at h
    cases hfa : f a with
    | error e => rw [hfa] at h; cases h
    | ok b =>
      rw [hfa] at h
      cases hml : mapE f l with
      | error e => rw [hml] at h; cases h
      | ok bs =>
        rw [hml] at h
        cases h
        simp [ih bs hml]

theorem mapE_ok_mem (f : α → Except Err β) : ∀ (l : List α) (ys : List β),
    mapE f l = .ok ys → ∀ y ∈ ys, ∃ a ∈ l, f a = .ok y := by
  intro l
  induction l with
  | nil => intro ys h y hy; simp [mapE] at h; subst h; cases hy
  | cons a l ih =>
    intro ys h y hy
    rw [mapE] at h
    cases hfa : f a with
    | error e => rw [hfa] at h; cases h
    | ok b =>
      rw [hfa] at h
      cases hml : mapE f l with
      | error e => rw [hml] at h; cases h
      | ok bs =>
        rw [hml] at h
        cases h
        rcases List.mem_cons.mp hy with rfl | hmem
        · exact ⟨a, by simp, hfa⟩
        · rcases ih bs hml y hmem with ⟨a', ha', hfa'⟩
          exact ⟨a', by simp [ha'], hfa'⟩

/-- Splitting a mixed ok/err traversal along the valid mask: the valid entries
contribute their records, the invalid ones are traversed by g, and the results
are interleaved by the mask. -/
theorem mapE_split (vb : α → Bool) (rec : α → β) (g : α → Except Err β) :
    ∀ (l : List α),
    mapE (fun p => if vb p then .ok (rec p) else g p) l =
      match mapE g (l.filter (fun p => ! vb p)) with
      | .error e => .error e
      | .ok zs => .ok (maskWrite (l.map vb) (l.map rec) zs) := by
  intro l
  induction l with
  | nil => simp [mapE, maskWrite]
  | cons a l ih =>
    by_cases hvb : vb a
    · rw [List.filter_cons_of_neg (by simp [hvb])]
      cases hg : mapE g (l.filter (fun p => ! vb p)) with
      | error e =>
        rw [hg] at ih
        simp only at ih
        simp [mapE, hvb, ih]
      | ok zs =>
        rw [hg] at ih
        simp only at ih
        simp [mapE, hvb, ih, maskWrite]
    · rw [List.filter_cons_of_pos (by simp [hvb])]
      have hvb' : vb a = false := by simp [hvb]
      cases hga : g a with
      | error e => simp [mapE, hvb, hga]
      | ok z =>
        cases hg : mapE g (l.filter (fun p => ! vb p)) with
        | error e =>
          rw [hg] at ih
          simp only at ih
          simp [mapE, hvb, hga, hg, ih]
        | ok zs =>
          rw [hg] at ih
          simp only at ih
          simp [mapE, hvb, hvb', hga, hg, ih, maskWrite]

/-- Composition of masked writes: writing the interleaving into the original
buffers equals writing the residual values into the updated buffers. -/
theorem maskWrite_compose : ∀ (ds : List Bool) (bs : List α) (vs : List Bool)
    (rcs : List α) (zs : List α), countFalse ds = vs.length →
    countFalse ds = rcs.length → ds.length = bs.length →
    maskWrite ds bs (maskWrite vs rcs zs) =
      maskWrite (maskWrite ds ds vs) (maskWrite ds bs rcs) zs := by
  intro ds
  induction ds with
  | nil => intro bs vs rcs zs _ _ _; simp [maskWrite]
  | cons d ds ih =>
    intro bs vs rcs zs hv hr hb
    cases bs with
    | nil => simp at hb
    | cons b bs =>
      cases d with
      | true =>
        have := ih bs vs rcs zs (by simpa [countFalse] using hv)
          (by simpa [countFalse] using hr) (by simpa using hb)
        simp [maskWrite, this]
      | false =>
        cases vs with
        | nil => simp [countFalse] at hv
        | cons v vs =>
          cases rcs with
          | nil => simp [countFalse] at hr
          | cons rc rcs =>
            have hv' : countFalse ds = vs.length := by simpa [countFalse] using hv
            have hr' : countFalse ds = rcs.length := by simpa [countFalse] using hr
            have hb' : ds.length = bs.length := by simpa using hb
            cases v with
            | true =>
              have := ih bs vs rcs zs hv' hr' hb'
              simp [maskWrite, this]
            | false =>
              cases zs with
              | nil =>
                have := ih bs vs rcs [] hv' hr' hb'
                simp [maskWrite, this]
              | cons z zs =>
                have := ih bs vs rcs zs hv' hr' hb'
                simp [maskWrite, this]

/-- One-step unfolding of the per-point loop at positive fuel. -/
theorem loopP_succ (P : Params K) (F : An K) (th : List (List K)) (rec : Pt K → β)
    (p : Pt K) (n : ℕ) :
    loopP P F th rec p (n + 1) =
      if validB P F th p then .ok (rec p)
      else loopP P F th rec (updP P F th p) n := by
  by_cases h : validB P F th p <;> rw [loopP] <;> simp [stepP, h]

/-- The per-point loop at fuel 0: return if valid, otherwise the raise. -/
theorem loopP_zero (P : Params K) (F : An K) (th : List (List K)) (rec : Pt K → β)
    (p : Pt K) :
    loopP P F th rec p 0 =
      if validB P F th p then .ok (rec p) else .error .nonTermination := by
  by_cases h : validB P F th p <;> rw [loopP] <;> simp [stepP, h]

/-- Every run of the per-point loop is an ok or the non-termination raise. -/
theorem loopP_shape (P : Params K) (F : An K) (th : List (List K)) (rec : Pt K → β) :
    ∀ (fuel : ℕ) (p : Pt K),
    loopP P F th rec p fuel = .error .nonTermination ∨
      ∃ b, loopP P F th rec p fuel = .ok b := by
  intro fuel
  induction fuel with
  | zero =>
    intro p
    rw [loopP_zero]
    by_cases h : validB P F th p
    · exact .inr ⟨rec p, by simp [h]⟩
    · exact .inl (by simp [h])
  | succ n ih =>
    intro p
    rw [loopP_succ]
    by_cases h : validB P F th p
    · exact .inr ⟨rec p, by simp [h]⟩
    · simpa [h] using ih (updP P F th p)

/-- The pointwise decomposition of the cell-hopping loop: the vectorized loop
with its shrinking active set and masked buffer writes computes exactly the
independent per-point runs, scattered back into the original point order. -/
theorem loopRec_eq_mapE (P : Params K) (F : An K) (th : List (List K))
    (rec : Pt K → β) : ∀ (fuel : ℕ) (s : VSt K β),
    countFalse s.done = s.active.length → s.done.length = s.buf.length →
    loopRec P F th rec s fuel =
      match mapE (fun p => loopP P F th rec p fuel) s.active with
      | .error e => .error e
      | .ok ys => .ok (maskWrite s.done s.buf ys) := by
  intro fuel
  induction fuel with
  | zero =>
    intro s hcount hlen
    by_cases hall : s.active.all (validB P F th)
    · have hok : mapE (fun p => loopP P F th rec p 0) s.active =
          .ok (s.active.map rec) := by
        refine mapE_ok_of_all _ _ _ (fun p hp => ?_)
        rw [loopP_zero, if_pos (List.all_eq_true.mp hall p hp)]
      rw [loopRec, hok]
      simp [stepRec, hall]
    · have hex : ∃ p ∈ s.active, ¬ (validB P F th p = true) := by
        by_contra hcon
        push_neg at hcon
        exact hall (List.all_eq_true.mpr hcon)
      rcases hex with ⟨p, hp, hnv⟩
      have herr : mapE (fun p => loopP P F th rec p 0) s.active =
          .error .nonTermination := by
        refine mapE_error_of_exists _ _ (fun a _ => loopP_shape P F th rec 0 a) ?_
        exact ⟨p, hp, by rw [loopP_zero, if_neg (by simpa using hnv)]⟩
      rw [loopRec, herr]
      simp [stepRec, hall]
  | succ n ih =>
    intro s hcount hlen
    by_cases hall : s.active.all (validB P F th)
    · have hok : mapE (fun p => loopP P F th rec p (n + 1)) s.active =
          .ok (s.active.map rec) := by
        refine mapE_ok_of_all _ _ _ (fun p hp => ?_)
        rw [loopP_succ, if_pos (List.all_eq_true.mp hall p hp)]
      rw [loopRec, hok]
      simp [stepRec, hall]
    · have hstep : stepRec P F th rec s = .inr
          ⟨maskWrite s.done s.done (s.active.map (validB P F th)),
           maskWrite s.done s.buf (s.active.map rec),
           (s.active.filter (fun p => ! validB P F th p)).map (updP P F th)⟩ := by
        simp [stepRec, hall]
      have hcount1 : countFalse (maskWrite s.done s.done (s.active.map (validB P F th))) =
          ((s.active.filter (fun p => ! validB P F th p)).map (updP P F th)).length := by
        rw [countFalse_maskWrite _ _ (by simpa [List.length_map] using hcount)]
        simp [countFalse_map_filter]
      have hlen1 : (maskWrite s.done s.done (s.active.map (validB P F th))).length =
          (maskWrite s.done s.buf (s.active.map rec)).length := by
        rw [maskWrite_length _ _ _ rfl, maskWrite_length _ _ _ hlen]
      have hIH := ih ⟨maskWrite s.done s.done (s.active.map (validB P F th)),
           maskWrite s.done s.buf (s.active.map rec),
           (s.active.filter (fun p => ! validB P F th p)).map (updP P F th)⟩
        hcount1 hlen1
      have hL : loopRec P F th rec s (n + 1) = loopRec P F th rec
          ⟨maskWrite s.done s.done (s.active.map (validB P F th)),
           maskWrite s.done s.buf (s.active.map rec),
           (s.active.filter (fun p => ! validB P F th p)).map (updP P F th)⟩ n := by
        rw [loopRec, hstep]
      simp only at hIH
      rw [hL, hIH, mapE_map]
      have hpt : (fun p => loopP P F th rec p (n + 1)) =
          fun p => if validB P F th p then .ok (rec p)
            else loopP P F th rec (updP P F th p) n := by
        funext p; exact loopP_succ P F th rec p n
      rw [hpt, mapE_split]
      cases hg : mapE (fun a => loopP P F th rec (updP P F th a) n)
          (s.active.filter (fun p => ! validB P F th p)) with
      | error e => rfl
      | ok zs =>
        have hcomp := maskWrite_compose s.done s.buf (s.active.map (validB P F th))
          (s.active.map rec) zs (by simpa [List.length_map] using hcount)
          (by simpa [List.length_map] using hcount) hlen
        simp [hcomp]

theorem countFalse_replicate : ∀ n : ℕ, countFalse (List.replicate n false) = n := by
  intro n
  induction n with
  | zero => simp [countFalse]
  | succ n ih => simp [List.replicate_succ, countFalse, ih]

theorem maskWrite_false_all : ∀ (n : ℕ) (ps ys : List α), ps.length = n →
    ys.length = n → maskWrite (List.replicate n false) ps ys = ys := by
  intro n
  induction n with
  | zero =>
    intro ps ys hp hy
    have hps : ps = [] := List.length_eq_zero.mp hp
    have hys : ys = [] := List.length_eq_zero.mp hy
    subst hps; subst hys; simp [maskWrite]
  | succ n ih =>
    intro ps ys hp hy
    cases ps with
    | nil => simp at hp
    | cons p ps =>
      cases ys with
      | nil => simp at hy
      | cons y ys =>
        simp [List.replicate_succ, maskWrite,
          ih ps ys (by simpa using hp) (by simpa using hy)]

/-- integrate_closed_form computes the independent per-point runs in order. -/
theorem integrate_closed_form_eq_mapE (P : Params K) (F : An K) (xs : List K)
    (th : List (List K)) :
    integrate_closed_form P F xs th =
      mapE (fun p => loopP P F th (fun q => get_psi P F th q.x q.t q.r) p P.nc)
        (initPts P xs th.length) := by
  rw [integrate_closed_form]
  rw [loopRec_eq_mapE P F th _ P.nc
    ⟨List.replicate (initPts P xs th.length).length false,
     List.replicate (initPts P xs th.length).length 0, initPts P xs th.length⟩
    (by simp [countFalse_replicate]) (by simp)]
  cases h : mapE (fun p => loopP P F th (fun q => get_psi P F th q.x q.t q.r) p P.nc)
      (initPts P xs th.length) with
  | error e => rfl
  | ok ys =>
    have hlen := mapE_ok_length _ _ _ h
    simp only
    rw [maskWrite_false_all (initPts P xs th.length).length _ _ (by simp) hlen]

/-- integrate_closed_form_trace computes the independent per-point runs in
order. -/
theorem integrate_closed_form_trace_eq_mapE (P : Params K) (F : An K)
    (xs : List K) (th : List (List K)) :
    integrate_closed_form_trace P F xs th =
      mapE (fun p => loopP P F th
          (fun q => (get_psi P F th q.x q.t q.r, q.t, q.c)) p P.nc)
        (initPts P xs th.length) := by
  rw [integrate_closed_form_trace]
  rw [loopRec_eq_mapE P F th _ P.nc
    ⟨List.replicate (initPts P xs th.length).length false,
     List.replicate (initPts P xs th.length).length (0, 0, 0), initPts P xs th.length⟩
    (by simp [countFalse_replicate]) (by simp)]
  cases h : mapE (fun p => loopP P F th
      (fun q => (get_psi P F th q.x q.t q.r, q.t, q.c)) p P.nc)
      (initPts P xs th.length) with
  | error e => rfl
  | ok ys =>
    have hlen := mapE_ok_length _ _ _ h
    simp only
    rw [maskWrite_false_all (initPts P xs th.length).length _ _ (by simp) hlen]

/-- The fuel-counted loop agrees with the unbounded iteration: if the loop
body finishes within fuel+1 iterations the loop returns that result, and
otherwise it raises the non-termination error. -/
theorem iterStep_succ (P : Params K) (F : An K) (th : List (List K))
    (rec : Pt K → β) (n : ℕ) (s : VSt K β) :
    iterStep P F th rec (n + 1) s =
      match stepRec P F th rec s with
      | .inl out => .inl out
      | .inr s1 => iterStep P F th rec n s1 := rfl

theorem loopRec_iterStep (P : Params K) (F : An K) (th : List (List K))
    (rec : Pt K → β) : ∀ (fuel : ℕ) (s : VSt K β),
    reflects (iterStep P F th rec (fuel + 1) s) (loopRec P F th rec s fuel) := by
  intro fuel
  induction fuel with
  | zero =>
    intro s
    cases h : stepRec P F th rec s with
    | inl out =>
      have h1 : iterStep P F th rec 1 s = .inl out := by rw [iterStep_succ, h]
      have h2 : loopRec P F th rec s 0 = .ok out := by rw [loopRec, h]
      rw [h1]
      simpa [reflects] using h2
    | inr s1 =>
      have h1 : iterStep P F th rec 1 s = .inr s1 := by rw [iterStep_succ, h]; rfl
      have h2 : loopRec P F th rec s 0 = .error .nonTermination := by rw [loopRec, h]
      rw [h1]
      simpa [reflects] using h2
  | succ n ih =>
    intro s
    cases h : stepRec P F th rec s with
    | inl out =>
      have h1 : iterStep P F th rec (n + 1 + 1) s = .inl out := by rw [iterStep_succ, h]
      have h2 : loopRec P F th rec s (n + 1) = .ok out := by rw [loopRec, h]
      rw [h1]
      simpa [reflects] using h2
    | inr s1 =>
      have h1 : iterStep P F th rec (n + 1 + 1) s = iterStep P F th rec (n + 1) s1 := by
        rw [iterStep_succ, h]
      have h2 : loopRec P F th rec s (n + 1) = loopRec P F th rec s1 n := by
        rw [loopRec, h]
      rw [h1, h2]
      exact ih s1

/-- C1: the cell-hopping loop of integrate_closed_form and of
integrate_closed_form_trace is bounded: if the unbounded iteration of the loop
body finishes within nc+1 iterations (each active point crosses at most nc
boundaries), the embedded call returns that result, and otherwise it raises
the fatal non-termination error instead of looping — in particular the
embedded functions are total on every input. -/
theorem c1_loop_bounded (P : Params K) (F : An K) (xs : List K)
    (th : List (List K)) :
    reflects (iterStep P F th (fun p => get_psi P F th p.x p.t p.r) (P.nc + 1)
        ⟨List.replicate (initPts P xs th.length).length false,
         List.replicate (initPts P xs th.length).length 0,
         initPts P xs th.length⟩)
      (integrate_closed_form P F xs th) ∧
    reflects (iterStep P F th (fun p => (get_psi P F th p.x p.t p.r, p.t, p.c)) (P.nc + 1)
        ⟨List.replicate (initPts P xs th.length).length false,
         List.replicate (initPts P xs th.length).length (0, 0, 0),
         initPts P xs th.length⟩)
      (integrate_closed_form_trace P F xs th) := by
  constructor
  · exact loopRec_iterStep P F th _ P.nc _
  · exact loopRec_iterStep P F th _ P.nc _

/-- The loop never produces any error other than the non-termination raise. -/
theorem loopRec_ne_domainMismatch (P : Params K) (F : An K) (th : List (List K))
    (rec : Pt K → β) : ∀ (fuel : ℕ) (s : VSt K β),
    loopRec P F th rec s fuel ≠ .error .domainMismatch := by
  intro fuel
  induction fuel with
  | zero =>
    intro s
    rw [loopRec]
    cases stepRec P F th rec s <;> simp
  | succ n ih =>
    intro s
    rw [loopRec]
    cases stepRec P F th rec s with
    | inl out => simp
    | inr s1 => exact ih s1

/-- C5 (amended): no eager shape validation happens at the entry points — the
numpy backend performs no shape checks at all, so no call of
integrate_closed_form, integrate_closed_form_trace or derivative_closed_form
ever reports a DomainMismatch error (the only error ever produced is the
non-termination raise of the loop counter; integrate_numeric can produce no
error at all). -/
theorem c5_no_eager_validation (P : Params K) (F : An K) (xs : List K)
    (th : List (List K)) :
    integrate_closed_form P F xs th ≠ .error .domainMismatch ∧
    integrate_closed_form_trace P F xs th ≠ .error .domainMismatch ∧
    derivative_closed_form P F xs th ≠ .error .domainMismatch := by
  refine ⟨loopRec_ne_domainMismatch P F th _ P.nc _,
    loopRec_ne_domainMismatch P F th _ P.nc _, ?_⟩
  rw [derivative_closed_form]
  cases h : integrate_closed_form_trace P F xs th with
  | error e =>
    cases e with
    | nonTermination => simp
    | domainMismatch =>
      exact absurd h (loopRec_ne_domainMismatch P F th _ P.nc _)
  | ok recs => simp

/-! ### The cell walk of derivative_closed_form -/

theorem updW_eq_self (P : Params K) (F : An K) (th : List (List K)) (k : ℕ)
    (w : WSt K) (h : w.c = w.cm) : updW P F th k w = w := by
  rw [updW, if_pos h]

theorem walkP_eq_self (P : Params K) (F : An K) (th : List (List K)) (k : ℕ)
    (w : WSt K) (h : w.c = w.cm) : walkP P F th k w = w := by
  rw [walkP, dif_pos h]

theorem walkP_updW (P : Params K) (F : An K) (th : List (List K)) (k : ℕ)
    (w : WSt K) : walkP P F th k (updW P F th k w) = walkP P F th k w := by
  by_cases h : w.c = w.cm
  · rw [updW_eq_self P F th k w h]
  · conv_rhs => rw [walkP, dif_neg h]

/-- The vectorized walk computes the per-record walks pointwise (the masked
vector updates are independent across records and stationary on finished
ones). -/
theorem walkV_eq_map (P : Params K) (F : An K) (th : List (List K)) (k : ℕ) :
    ∀ (n : ℕ) (ws : List (WSt K)), (ws.map walkMeasure).sum ≤ n →
    walkV P F th k ws = ws.map (walkP P F th k) := by
  intro n
  induction n with
  | zero =>
    intro ws hm
    have hz : ∀ w ∈ ws, walkMeasure w = 0 := by
      intro w hw
      have := List.sum_eq_zero_iff.mp (Nat.le_zero.mp hm)
      exact this _ (List.mem_map_of_mem _ hw)
    have hvalid : ∀ w ∈ ws, w.c = w.cm := by
      intro w hw
      have := hz w hw
      unfold walkMeasure at this
      omega
    have hall : ws.all (fun w => w.c == w.cm) = true :=
      List.all_eq_true.mpr (fun w hw => by simpa using hvalid w hw)
    have hmap : ws.map (walkP P F th k) = ws := by
      have h := List.map_congr_left
        (fun w hw => walkP_eq_self P F th k w (hvalid w hw))
      simpa using h
    rw [walkV, dif_pos hall, hmap]
  | succ n ih =>
    intro ws hm
    by_cases hall : ws.all (fun w => w.c == w.cm) = true
    · have hvalid : ∀ w ∈ ws, w.c = w.cm := by
        intro w hw
        simpa using List.all_eq_true.mp hall w hw
      have hmap : ws.map (walkP P F th k) = ws := by
        have h := List.map_congr_left
          (fun w hw => walkP_eq_self P F th k w (hvalid w hw))
        simpa using h
      rw [walkV, dif_pos hall, hmap]
    · rw [walkV, dif_neg hall]
      have hex : ∃ w ∈ ws, ¬ w.c = w.cm := by
        by_contra hcon
        push_neg at hcon
        exact hall (List.all_eq_true.mpr (fun w hw => by simpa using hcon w hw))
      have hlt := walkMeasure_sum_lt P F th k ws hex
      have := ih (ws.map (updW P F th k)) (by omega)
      rw [this, List.map_map]
      exact List.map_congr_left (fun w hw => walkP_updW P F th k w)

/-- If every record starts within distance m of its target cell, the walk
performs at most m iterations. -/
theorem walkCount_le (P : Params K) (F : An K) (th : List (List K)) (k : ℕ) :
    ∀ (m : ℕ) (ws : List (WSt K)), (∀ w ∈ ws, walkMeasure w ≤ m) →
    walkCount P F th k ws ≤ m := by
  intro m
  induction m with
  | zero =>
    intro ws hm
    have hall : ws.all (fun w => w.c == w.cm) = true := by
      refine List.all_eq_true.mpr (fun w hw => ?_)
      have := hm w hw
      unfold walkMeasure at this
      simp only [beq_iff_eq]
      omega
    rw [walkCount, dif_pos hall]
  | succ m ih =>
    intro ws hm
    by_cases hall : ws.all (fun w => w.c == w.cm) = true
    · rw [walkCount, dif_pos hall]; omega
    · rw [walkCount, dif_neg hall]
      have hrec : walkCount P F th k (ws.map (updW P F th k)) ≤ m := by
        refine ih _ (fun w' hw' => ?_)
        rcases List.mem_map.mp hw' with ⟨w, hw, rfl⟩
        by_cases hv : w.c = w.cm
        · rw [updW_eq_self P F th k w hv]
          have : walkMeasure w = 0 := by unfold walkMeasure; omega
          omega
        · have h1 := walkMeasure_updW_lt P F th k w hv
          have h2 := hm w hw
          omega
      omega

/-- A failed validity test yields the direction facts needed for the tracked
cell to stay in range. -/
theorem validB_false_elim (P : Params K) (F : An K) (th : List (List K))
    (p : Pt K) (h : ¬ (validB P F th p = true)) :
    ¬(0 ≤ get_velocity P th p.x p.r ∧ p.c = (P.nc : ℤ) - 1) ∧
    ¬(get_velocity P th p.x p.r ≤ 0 ∧ p.c = 0) := by
  simp only [validB, Bool.or_eq_true, Bool.and_eq_true, decide_eq_true_eq] at h
  push_neg at h
  refine ⟨fun hc => ?_, fun hc => ?_⟩
  · exact h.1.2 hc.1 hc.2
  · exact h.2 hc.1 hc.2

/-- The tracked cell stays in [0, nc-1] along an update of an invalid point. -/
theorem updP_c_range (P : Params K) (F : An K) (th : List (List K)) (p : Pt K)
    (h : ¬ (validB P F th p = true)) (h0 : 0 ≤ p.c) (h1 : p.c ≤ (P.nc : ℤ) - 1) :
    0 ≤ (updP P F th p).c ∧ (updP P F th p).c ≤ (P.nc : ℤ) - 1 := by
  have helim := validB_false_elim P F th p h
  rw [updP]
  simp only
  by_cases hv : 0 ≤ get_velocity P th p.x p.r
  · rw [if_pos hv]
    have : ¬ p.c = (P.nc : ℤ) - 1 := fun hc => helim.1 ⟨hv, hc⟩
    omega
  · rw [if_neg hv]
    have hvle : get_velocity P th p.x p.r ≤ 0 := le_of_not_le hv
    have : ¬ p.c = 0 := fun hc => helim.2 ⟨hvle, hc⟩
    omega

/-- The cell recorded in the trace of a finalized point lies in [0, nc-1]. -/
theorem loopP_trace_c_range (P : Params K) (F : An K) (th : List (List K)) :
    ∀ (fuel : ℕ) (p : Pt K) (out : K × K × ℤ), 0 ≤ p.c → p.c ≤ (P.nc : ℤ) - 1 →
    loopP P F th (fun q => (get_psi P F th q.x q.t q.r, q.t, q.c)) p fuel = .ok out →
    0 ≤ out.2.2 ∧ out.2.2 ≤ (P.nc : ℤ) - 1 := by
  intro fuel
  induction fuel with
  | zero =>
    intro p out h0 h1 hok
    rw [loopP_zero] at hok
    by_cases hv : validB P F th p = true
    · rw [if_pos hv] at hok
      cases hok
      exact ⟨h0, h1⟩
    · rw [if_neg hv] at hok
      cases hok
  | succ n ih =>
    intro p out h0 h1 hok
    rw [loopP_succ] at hok
    by_cases hv : validB P F th p = true
    · rw [if_pos hv] at hok
      cases hok
      exact ⟨h0, h1⟩
    · rw [if_neg hv] at hok
      have hrange := updP_c_range P F th p hv h0 h1
      exact ih (updP P F th p) out hrange.1 hrange.2 hok

/-- Every initial point carries the clamped cell of its position. -/
theorem initPts_c_range (P : Params K) (hnc : 0 < P.nc) (xs : List K) (nb : ℕ) :
    ∀ p ∈ initPts P xs nb, 0 ≤ p.c ∧ p.c ≤ (P.nc : ℤ) - 1 := by
  intro p hp
  rcases List.mem_flatten.mp hp with ⟨row, hrow, hprow⟩
  rcases List.mem_map.mp hrow with ⟨i, _, rfl⟩
  rcases List.mem_map.mp hprow with ⟨x, _, rfl⟩
  exact get_cell_range P hnc x

/-- C10 (implicit): the cell-walk loop of derivative_closed_form terminates
on every trace produced by integrate_closed_form_trace even though it has no
iteration cap: each iteration moves every unfinished point's working cell one
step toward its trace cell cm, so at most nc-1 iterations run (both the
starting cell and cm lie in [0, nc-1]). -/
theorem c10_walk_bounded (P : Params K) (F : An K) (xs : List K)
    (th : List (List K)) (recs : List (K × K × ℤ)) (k : ℕ) (hnc : 0 < P.nc)
    (htr : integrate_closed_form_trace P F xs th = .ok recs) :
    walkCount P F th k (((initPts P xs th.length).zip recs).map
      (fun pr => ⟨0, pr.1.x, get_cell P pr.1.x, pr.2.2.2, pr.1.r⟩)) ≤ P.nc - 1 := by
  refine walkCount_le P F th k (P.nc - 1) _ (fun w hw => ?_)
  rcases List.mem_map.mp hw with ⟨pr, hpr, rfl⟩
  have hmem := List.of_mem_zip hpr
  have hc0 : 0 ≤ get_cell P pr.1.x ∧ get_cell P pr.1.x ≤ (P.nc : ℤ) - 1 :=
    get_cell_range P hnc pr.1.x
  have hcm : 0 ≤ pr.2.2.2 ∧ pr.2.2.2 ≤ (P.nc : ℤ) - 1 := by
    rw [integrate_closed_form_trace_eq_mapE] at htr
    rcases mapE_ok_mem _ _ _ htr pr.2 hmem.2 with ⟨p, hp, hok⟩
    have hpc := initPts_c_range P hnc xs th.length p hp
    exact loopP_trace_c_range P F th P.nc p pr.2 hpc.1 hpc.2 hok
  unfold walkMeasure
  simp only
  omega

/-- Witness for C10: the zero field on one cell; the trace finishes and the
walk performs zero iterations, within the bound nc - 1 = 0. -/
theorem c10_walk_bounded_witness :
    (0 < cfgQ1.nc ∧
      integrate_closed_form_trace cfgQ1 anQ [1 / 2] [[0]] = .ok [(1 / 2, 1, 0)]) ∧
    walkCount cfgQ1 anQ [[0]] 0 (((initPts cfgQ1 [1 / 2] 1).zip [(1 / 2, 1, 0)]).map
      (fun pr => ⟨0, pr.1.x, get_cell cfgQ1 pr.1.x, pr.2.2.2, pr.1.r⟩)) ≤ cfgQ1.nc - 1 := by
  have htr : integrate_closed_form_trace cfgQ1 anQ [1 / 2] [[0]] = .ok [(1 / 2, 1, 0)] := by
    simp [integrate_closed_form_trace, initPts, loopRec, stepRec, validB, get_psi,
      get_velocity, coeff_a, coeff_b, dotL, get_cell, left_boundary, right_boundary,
      eps, cfgQ1, anQ, maskWrite]
  exact ⟨⟨by norm_num [cfgQ1], htr⟩,
    c10_walk_bounded cfgQ1 anQ [1 / 2] [[0]] [(1 / 2, 1, 0)] 0 (by norm_num [cfgQ1]) htr⟩

/-! ### Positional lookups (for the per-point reading of the gradient) -/

theorem getD_map (f : α → β) : ∀ (l : List α) (j : ℕ), j < l.length →
    ∀ (dα : α) (dβ : β), (l.map f).getD j dβ = f (l.getD j dα) := by
  intro l
  induction l with
  | nil => intro j h; simp at h
  | cons a l ih =>
    intro j h dα dβ
    cases j with
    | zero => simp
    | succ j =>
      simp only [List.map_cons, List.getD_cons_succ]
      exact ih j (by simpa using h) dα dβ

theorem getD_zip : ∀ (l1 : List α) (l2 : List β) (j : ℕ), j < l1.length →
    j < l2.length → ∀ (d1 : α) (d2 : β),
    (l1.zip l2).getD j (d1, d2) = (l1.getD j d1, l2.getD j d2) := by
  intro l1
  induction l1 with
  | nil => intro l2 j h; simp at h
  | cons a l1 ih =>
    intro l2 j h1 h2 d1 d2
    cases l2 with
    | nil => simp at h2
    | cons b l2 =>
      cases j with
      | zero => simp [List.zip_cons_cons]
      | succ j =>
        simp only [List.zip_cons_cons, List.getD_cons_succ]
        exact ih l2 j (by simpa using h1) (by simpa using h2) d1 d2

theorem getD_range : ∀ (d k : ℕ), k < d → (List.range d).getD k 0 = k := by
  intro d
  induction d with
  | zero => intro k h; omega
  | succ d ih =>
    intro k h
    rcases Nat.lt_or_ge k d with hk | hk
    · rw [List.range_succ]
      rw [List.getD_append _ _ _ _ (by simpa using hk)]
      exact ih k hk
    · have hkd : k = d := by omega
      subst hkd
      rw [List.range_succ]
      have : (List.range k).length = k := by simp
      rw [List.getD_eq_getElem?_getD, List.getElem?_append_right (by simp)]
      simp

/-- C3: for every point j and every parameter component k, the gradient entry
computed by derivative_closed_form equals the per-point chain rule: walk from
the point's starting cell to the trace cell cm accumulating
dthit_dtheta_cum -= d(hit time)/d(theta_k), then
dphi/dtheta_k = dpsi/dtheta_k + (dphi/dt) * dthit_dtheta_cum at the final
segment, independently for each component k. -/
theorem c3_chain_rule (P : Params K) (F : An K) (xs : List K)
    (th : List (List K)) (recs : List (K × K × ℤ)) (k j : ℕ)
    (htr : integrate_closed_form_trace P F xs th = .ok recs)
    (hk : k < (th.getD 0 []).length)
    (hj : j < (initPts P xs th.length).length) :
    ∃ phi der, derivative_closed_form P F xs th = .ok (phi, der) ∧
      (der.getD k []).getD j 0 =
        (let p := (initPts P xs th.length).getD j ⟨0, 0, 0, 0⟩
         let rc := recs.getD j (0, 0, 0)
         let w := walkP P F th k ⟨0, p.x, get_cell P p.x, rc.2.2, p.r⟩
         derivative_psi_theta P F th w.xm rc.2.1 w.r k +
           derivative_phi_time P F th w.xm rc.2.1 w.r k * w.dcum) := by
  have hlenr : recs.length = (initPts P xs th.length).length := by
    rw [integrate_closed_form_trace_eq_mapE] at htr
    exact mapE_ok_length _ _ _ htr
  rw [derivative_closed_form, htr]
  refine ⟨_, _, rfl, ?_⟩
  simp only
  have hws0len : (((initPts P xs th.length).zip recs).map
      (fun pr => (⟨0, pr.1.x, get_cell P pr.1.x, pr.2.2.2, pr.1.r⟩ : WSt K))).length =
      (initPts P xs th.length).length := by
    simp [List.length_zip, hlenr]
  have hwalk := walkV_eq_map P F th k
    ((((initPts P xs th.length).zip recs).map
      (fun pr => (⟨0, pr.1.x, get_cell P pr.1.x, pr.2.2.2, pr.1.r⟩ : WSt K))).map
        walkMeasure).sum
    (((initPts P xs th.length).zip recs).map
      (fun pr => (⟨0, pr.1.x, get_cell P pr.1.x, pr.2.2.2, pr.1.r⟩ : WSt K)))
    le_rfl
  rw [getD_map _ _ _ (by simpa using hk) 0 [], getD_range _ _ hk, hwalk]
  rw [getD_map _ _ _ (by simp [List.length_zip, hws0len, hlenr]; omega)
    ((⟨0, 0, 0, 0, 0⟩ : WSt K), ((0 : K), (0 : K), (0 : ℤ))) 0]
  rw [getD_zip _ _ _ (by simp [hws0len]; omega) (by omega) _ _]
  rw [getD_map _ _ _ (by rw [hws0len]; omega) (⟨0, 0, 0, 0, 0⟩ : WSt K) _]
  rw [getD_map _ _ _ (by simp [List.length_zip, hlenr]; omega)
    ((⟨0, 0, 0, 0⟩ : Pt K), ((0 : K), (0 : K), (0 : ℤ))) _]
  rw [getD_zip _ _ _ (by omega) (by omega) _ _]

/-- Witness for C3 at the zero field on one cell, component k = 0, point j = 0. -/
theorem c3_chain_rule_witness :
    ∃ phi der, derivative_closed_form cfgQ1 anQ [1 / 2] [[0]] = .ok (phi, der) ∧
      (der.getD 0 []).getD 0 0 =
        (let p := (initPts cfgQ1 [1 / 2] (1 : ℕ)).getD 0 ⟨0, 0, 0, 0⟩
         let rc := ([((1 : ℚ) / 2, (1 : ℚ), (0 : ℤ))]).getD 0 (0, 0, 0)
         let w := walkP cfgQ1 anQ [[0]] 0 ⟨0, p.x, get_cell cfgQ1 p.x, rc.2.2, p.r⟩
         derivative_psi_theta cfgQ1 anQ [[0]] w.xm rc.2.1 w.r 0 +
           derivative_phi_time cfgQ1 anQ [[0]] w.xm rc.2.1 w.r 0 * w.dcum) := by
  have htr : integrate_closed_form_trace cfgQ1 anQ [1 / 2] [[0]] = .ok [(1 / 2, 1, 0)] := by
    simp [integrate_closed_form_trace, initPts, loopRec, stepRec, validB, get_psi,
      get_velocity, coeff_a, coeff_b, dotL, get_cell, left_boundary, right_boundary,
      eps, cfgQ1, anQ, maskWrite]
  exact c3_chain_rule cfgQ1 anQ [1 / 2] [[0]] [(1 / 2, 1, 0)] 0 0 htr
    (by norm_num) (by simp [initPts, List.range_succ])

/-- C7: for every x in [xmin, xmax] (xmin < xmax, nc positive), the clamped
floor formula get_cell returns a cell whose eps-widened boundaries enclose x:
left_boundary(get_cell(x)) <= x <= right_boundary(get_cell(x)). -/
theorem c7_cell_boundary_agreement (P : Params K) (hl : P.xmin < P.xmax)
    (hnc : 0 < P.nc) (x : K) (hx1 : P.xmin ≤ x) (hx2 : x ≤ P.xmax) :
    left_boundary P (get_cell P x) ≤ x ∧ x ≤ right_boundary P (get_cell P x) := by
  have hw : (0 : K) < P.xmax - P.xmin := sub_pos.mpr hl
  have hn : (0 : K) < (P.nc : K) := by exact_mod_cast hnc
  set τ : K := (x - P.xmin) / (P.xmax - P.xmin) * (P.nc : K) with hτ
  have hτ0 : 0 ≤ τ := mul_nonneg (div_nonneg (sub_nonneg.mpr hx1) hw.le) hn.le
  have hτn : τ ≤ (P.nc : K) := by
    have h1 : (x - P.xmin) / (P.xmax - P.xmin) ≤ 1 := (div_le_one hw).mpr (by linarith)
    calc τ ≤ 1 * (P.nc : K) := by rw [hτ]; exact mul_le_mul_of_nonneg_right h1 hn.le
    _ = (P.nc : K) := one_mul _
  have hfl : 0 ≤ ⌊τ⌋ := Int.floor_nonneg.mpr hτ0
  have hcell : get_cell P x = min ⌊τ⌋ ((P.nc : ℤ) - 1) := by
    rw [get_cell, ← hτ, max_eq_left hfl]
  have key1 : (get_cell P x : K) ≤ τ := by
    have h1 : get_cell P x ≤ ⌊τ⌋ := by rw [hcell]; exact min_le_left _ _
    have h2 : (get_cell P x : K) ≤ (⌊τ⌋ : K) := by exact_mod_cast h1
    exact h2.trans (Int.floor_le τ)
  have key2 : τ ≤ (get_cell P x : K) + 1 := by
    rcases le_total ⌊τ⌋ ((P.nc : ℤ) - 1) with h | h
    · have hceq : get_cell P x = ⌊τ⌋ := by rw [hcell]; exact min_eq_left h
      rw [hceq]; exact (Int.lt_floor_add_one τ).le
    · have hceq : get_cell P x = (P.nc : ℤ) - 1 := by rw [hcell]; exact min_eq_right h
      rw [hceq]; push_cast; linarith
  have hx_eq : τ * (P.xmax - P.xmin) / (P.nc : K) = x - P.xmin := by
    rw [hτ]; field_simp
  have heps : (0 : K) < eps := eps_pos
  constructor
  · rw [left_boundary]
    have h3 : (get_cell P x : K) * (P.xmax - P.xmin) / (P.nc : K) ≤
        τ * (P.xmax - P.xmin) / (P.nc : K) := by gcongr
    linarith
  · rw [right_boundary]
    have h3 : τ * (P.xmax - P.xmin) / (P.nc : K) ≤
        ((get_cell P x : K) + 1) * (P.xmax - P.xmin) / (P.nc : K) := by gcongr
    linarith

/-- Witness for C7 at xmin = 0, xmax = 1, nc = 2, x = 1/3. -/
theorem c7_cell_boundary_agreement_witness :
    (cfgQ.xmin < cfgQ.xmax ∧ 0 < cfgQ.nc ∧ cfgQ.xmin ≤ (1 / 3 : ℚ) ∧
      (1 / 3 : ℚ) ≤ cfgQ.xmax) ∧
    left_boundary cfgQ (get_cell cfgQ (1 / 3)) ≤ 1 / 3 ∧
    (1 / 3 : ℚ) ≤ right_boundary cfgQ (get_cell cfgQ (1 / 3)) :=
  ⟨⟨by norm_num [cfgQ], by norm_num [cfgQ], by norm_num [cfgQ], by norm_num [cfgQ]⟩,
    c7_cell_boundary_agreement cfgQ (by norm_num [cfgQ]) (by norm_num [cfgQ])
      (1 / 3) (by norm_num [cfgQ]) (by norm_num [cfgQ])⟩

/-! ### Cell bookkeeping at clipped boundary positions -/

theorem get_cell_of_lt (P : Params K) (hl : P.xmin < P.xmax) (hnc : 0 < P.nc)
    (x : K) (hx : x < P.xmin) : get_cell P x = 0 := by
  have hw : (0 : K) < P.xmax - P.xmin := sub_pos.mpr hl
  have hn : (0 : K) < (P.nc : K) := by exact_mod_cast hnc
  have hτ : (x - P.xmin) / (P.xmax - P.xmin) * (P.nc : K) < 0 :=
    mul_neg_of_neg_of_pos (div_neg_of_neg_of_pos (by linarith) hw) hn
  have hfl : ⌊(x - P.xmin) / (P.xmax - P.xmin) * (P.nc : K)⌋ < 0 := by
    rw [Int.floor_lt]
    exact_mod_cast hτ
  rw [get_cell, max_eq_right hfl.le]
  exact min_eq_left (by omega)

theorem get_cell_of_gt (P : Params K) (hl : P.xmin < P.xmax) (hnc : 0 < P.nc)
    (x : K) (hx : P.xmax < x) : get_cell P x = (P.nc : ℤ) - 1 := by
  have hw : (0 : K) < P.xmax - P.xmin := sub_pos.mpr hl
  have hn : (0 : K) < (P.nc : K) := by exact_mod_cast hnc
  have hτ : (P.nc : K) ≤ (x - P.xmin) / (P.xmax - P.xmin) * (P.nc : K) := by
    have h1 : (1 : K) ≤ (x - P.xmin) / (P.xmax - P.xmin) := by
      rw [le_div_iff hw]; linarith
    calc (P.nc : K) = 1 * (P.nc : K) := (one_mul _).symm
    _ ≤ (x - P.xmin) / (P.xmax - P.xmin) * (P.nc : K) :=
      mul_le_mul_of_nonneg_right h1 hn.le
  have hfl : (P.nc : ℤ) ≤ ⌊(x - P.xmin) / (P.xmax - P.xmin) * (P.nc : K)⌋ := by
    rw [Int.le_floor]
    exact_mod_cast hτ
  rw [get_cell, max_eq_left (by omega)]
  exact min_eq_right (by omega)

/-- Crossing the right boundary of cell c lands (after clipping) in cell c+1
when eps*nc is smaller than the domain width. -/
theorem get_cell_right_boundary (P : Params K) (hl : P.xmin < P.xmax)
    (hnc : 0 < P.nc) (heps : (P.nc : K) * eps < P.xmax - P.xmin) (c : ℤ)
    (h0 : 0 ≤ c + 1) (h1 : c + 1 ≤ (P.nc : ℤ) - 1) :
    get_cell P (right_boundary P c) = c + 1 := by
  have hw : (0 : K) < P.xmax - P.xmin := sub_pos.mpr hl
  have hn : (0 : K) < (P.nc : K) := by exact_mod_cast hnc
  have hτ : (right_boundary P c - P.xmin) / (P.xmax - P.xmin) * (P.nc : K)
      = (c : K) + 1 + eps * (P.nc : K) / (P.xmax - P.xmin) := by
    rw [right_boundary]; field_simp; ring
  have hfrac0 : 0 < eps * (P.nc : K) / (P.xmax - P.xmin) :=
    div_pos (mul_pos eps_pos hn) hw
  have hfrac1 : eps * (P.nc : K) / (P.xmax - P.xmin) < 1 := by
    rw [div_lt_one hw, mul_comm]; exact heps
  have hfloor : ⌊(right_boundary P c - P.xmin) / (P.xmax - P.xmin) * (P.nc : K)⌋ = c + 1 := by
    rw [hτ, Int.floor_eq_iff]
    push_cast
    constructor <;> linarith
  rw [get_cell, hfloor, max_eq_left h0]
  exact min_eq_left h1

/-- Crossing the left boundary of cell c lands (after clipping) in cell c-1
when eps*nc is smaller than the domain width. -/
theorem get_cell_left_boundary (P : Params K) (hl : P.xmin < P.xmax)
    (hnc : 0 < P.nc) (heps : (P.nc : K) * eps < P.xmax - P.xmin) (c : ℤ)
    (h0 : 0 ≤ c - 1) (h1 : c - 1 ≤ (P.nc : ℤ) - 1) :
    get_cell P (left_boundary P c) = c - 1 := by
  have hw : (0 : K) < P.xmax - P.xmin := sub_pos.mpr hl
  have hn : (0 : K) < (P.nc : K) := by exact_mod_cast hnc
  have hτ : (left_boundary P c - P.xmin) / (P.xmax - P.xmin) * (P.nc : K)
      = (c : K) - eps * (P.nc : K) / (P.xmax - P.xmin) := by
    rw [left_boundary]; field_simp; ring
  have hfrac0 : 0 < eps * (P.nc : K) / (P.xmax - P.xmin) :=
    div_pos (mul_pos eps_pos hn) hw
  have hfrac1 : eps * (P.nc : K) / (P.xmax - P.xmin) < 1 := by
    rw [div_lt_one hw, mul_comm]; exact heps
  have hfloor : ⌊(left_boundary P c - P.xmin) / (P.xmax - P.xmin) * (P.nc : K)⌋ = c - 1 := by
    rw [hτ, Int.floor_eq_iff]
    push_cast
    constructor <;> linarith
  rw [get_cell, hfloor, max_eq_left h0]
  exact min_eq_left h1

theorem left_boundary_le_right (P : Params K) (hl : P.xmin < P.xmax)
    (hnc : 0 < P.nc) (c : ℤ) : left_boundary P c ≤ right_boundary P c := by
  have hw : (0 : K) < P.xmax - P.xmin := sub_pos.mpr hl
  have hn : (0 : K) < (P.nc : K) := by exact_mod_cast hnc
  have h1 : (c : K) * (P.xmax - P.xmin) / (P.nc : K) ≤
      ((c : K) + 1) * (P.xmax - P.xmin) / (P.nc : K) := by gcongr <;> linarith
  have := eps_pos (K := K)
  rw [left_boundary, right_boundary]
  linarith

theorem left_succ_le_right_boundary (P : Params K) (c : ℤ) :
    left_boundary P (c + 1) ≤ right_boundary P c := by
  have := eps_pos (K := K)
  rw [left_boundary, right_boundary]
  push_cast
  linarith

theorem right_boundary_mono (P : Params K) (hl : P.xmin < P.xmax)
    (hnc : 0 < P.nc) (c : ℤ) : right_boundary P c ≤ right_boundary P (c + 1) := by
  have hw : (0 : K) < P.xmax - P.xmin := sub_pos.mpr hl
  have hn : (0 : K) < (P.nc : K) := by exact_mod_cast hnc
  rw [right_boundary, right_boundary]
  have h1 : ((c : K) + 1) * (P.xmax - P.xmin) / (P.nc : K) ≤
      (((c : ℤ) + 1 : ℤ) + 1 : K) * (P.xmax - P.xmin) / (P.nc : K) := by
    gcongr
    push_cast
    linarith
  push_cast at h1 ⊢
  linarith

theorem left_boundary_mono (P : Params K) (hl : P.xmin < P.xmax)
    (hnc : 0 < P.nc) (c : ℤ) : left_boundary P (c - 1) ≤ left_boundary P c := by
  have hw : (0 : K) < P.xmax - P.xmin := sub_pos.mpr hl
  have hn : (0 : K) < (P.nc : K) := by exact_mod_cast hnc
  rw [left_boundary, left_boundary]
  have h1 : ((c : K) - 1) * (P.xmax - P.xmin) / (P.nc : K) ≤
      (c : K) * (P.xmax - P.xmin) / (P.nc : K) := by
    gcongr
    linarith
  push_cast
  linarith

theorem left_le_right_pred_boundary (P : Params K) (c : ℤ) :
    left_boundary P c ≤ right_boundary P (c - 1) := by
  have := eps_pos (K := K)
  rw [left_boundary, right_boundary]
  push_cast
  ring_nf
  linarith

/-- The validity test as a proposition. -/
theorem validB_true_iff (P : Params K) (F : An K) (th : List (List K)) (p : Pt K) :
    validB P F th p = true ↔
      (left_boundary P p.c ≤ get_psi P F th p.x p.t p.r ∧
        get_psi P F th p.x p.t p.r ≤ right_boundary P p.c) ∨
      (0 ≤ get_velocity P th p.x p.r ∧ p.c = (P.nc : ℤ) - 1) ∨
      (get_velocity P th p.x p.r ≤ 0 ∧ p.c = 0) := by
  simp only [validB, Bool.or_eq_true, Bool.and_eq_true, decide_eq_true_eq]
  tauto

/-- A valid point is finalized by the loop regardless of remaining fuel. -/
theorem loopP_of_valid (P : Params K) (F : An K) (th : List (List K))
    (rec : Pt K → β) (p : Pt K) (fuel : ℕ) (h : validB P F th p = true) :
    loopP P F th rec p fuel = .ok (rec p) := by
  cases fuel with
  | zero => rw [loopP_zero, if_pos h]
  | succ n => rw [loopP_succ, if_pos h]

/-! ### The stationary / constant field (C8) -/

theorem dotL_zero_right (u : List K) : ∀ n : ℕ, dotL u (List.replicate n 0) = 0 := by
  induction u with
  | nil => intro n; simp [dotL]
  | cons a u ih =>
    intro n
    cases n with
    | zero => simp [dotL]
    | succ n =>
      have := ih n
      simp [dotL, List.replicate_succ] at this ⊢
      exact this

theorem dotL_nil_right (u : List K) : dotL u [] = 0 := by
  cases u <;> simp [dotL]

/-- The zero parameter vector resolves every affine coefficient to zero. -/
theorem coeff_zero_theta (P : Params K) (dθ : ℕ) (r : ℕ) (c : ℤ) :
    coeff_a P [List.replicate dθ 0] r c = 0 ∧
    coeff_b P [List.replicate dθ 0] r c = 0 := by
  cases r with
  | zero =>
    constructor <;> simp [coeff_a, coeff_b, dotL_zero_right]
  | succ r =>
    constructor <;> simp [coeff_a, coeff_b, List.getD, dotL_nil_right]

/-- A point of the zero field is finalized immediately with psi = x, wherever
it starts. -/
theorem zero_field_point (P : Params K) (F : An K) (dθ : ℕ)
    (hl : P.xmin < P.xmax) (hnc : 0 < P.nc) (x t : K) (r : ℕ) (fuel : ℕ) :
    loopP P F [List.replicate dθ 0]
      (fun q => get_psi P F [List.replicate dθ 0] q.x q.t q.r)
      ⟨x, t, r, get_cell P x⟩ fuel = .ok x := by
  have hab := coeff_zero_theta P dθ r (get_cell P x)
  have hv : get_velocity P [List.replicate dθ 0] x r = 0 := by
    rw [get_velocity, hab.1, hab.2]; ring
  have hψ : get_psi P F [List.replicate dθ 0] x t r = x := by
    rw [get_psi]
    simp [hab.1, hab.2]
  have hvalid : validB P F [List.replicate dθ 0] ⟨x, t, r, get_cell P x⟩ = true := by
    rw [validB_true_iff]
    simp only
    rcases lt_or_le x P.xmin with hx | hx
    · exact .inr (.inr ⟨hv.le, get_cell_of_lt P hl hnc x hx⟩)
    · rcases le_or_lt x P.xmax with hx2 | hx2
      · refine .inl ?_
        rw [hψ]
        exact c7_cell_boundary_agreement P hl hnc x hx hx2
      · exact .inr (.inl ⟨hv.ge, get_cell_of_gt P hl hnc x hx2⟩)
  rw [loopP_of_valid P F _ _ _ fuel hvalid]
  simp only [hψ]

/-- The constant positive field pushes a point through successive right
boundaries, conserving x + t*b, until the last cell finalizes it. -/
theorem const_field_point_pos (P : Params K) (F : An K) (th : List (List K))
    (bv : K) (hl : P.xmin < P.xmax) (hnc : 0 < P.nc)
    (heps : (P.nc : K) * eps < P.xmax - P.xmin) (hb : 0 < bv)
    (hconst : ∀ c : ℤ, 0 ≤ c → c ≤ (P.nc : ℤ) - 1 →
      coeff_a P th 0 c = 0 ∧ coeff_b P th 0 c = bv) :
    ∀ (m : ℕ) (x t : K) (c : ℤ) (fuel : ℕ),
    c = get_cell P x → 0 ≤ c → c ≤ (P.nc : ℤ) - 1 →
    left_boundary P c ≤ x → x ≤ right_boundary P c → 0 < t →
    ((P.nc : ℤ) - 1 - c).toNat = m → m ≤ fuel →
    loopP P F th (fun q => get_psi P F th q.x q.t q.r) ⟨x, t, 0, c⟩ fuel =
      .ok (x + t * bv) := by
  intro m
  induction m with
  | zero =>
    intro x t c fuel hcell h0 h1 hxl hxr ht hm hfuel
    have hceq : c = (P.nc : ℤ) - 1 := by omega
    have hab := hconst c h0 h1
    have hv : get_velocity P th x 0 = bv := by
      rw [get_velocity, ← hcell, hab.1, hab.2]; ring
    have hψ : get_psi P F th x t 0 = x + t * bv := by
      rw [get_psi, ← hcell]
      simp [hab.1, hab.2]
    have hvalid : validB P F th ⟨x, t, 0, c⟩ = true := by
      rw [validB_true_iff]
      exact .inr (.inl ⟨by simpa [hv] using hb.le, hceq⟩)
    rw [loopP_of_valid P F th _ _ fuel hvalid]
    simp only [hψ]
  | succ m ih =>
    intro x t c fuel hcell h0 h1 hxl hxr ht hm hfuel
    have hclt : c ≤ (P.nc : ℤ) - 2 := by omega
    have hab := hconst c h0 h1
    have hv : get_velocity P th x 0 = bv := by
      rw [get_velocity, ← hcell, hab.1, hab.2]; ring
    have hv0 : (0 : K) ≤ get_velocity P th x 0 := by rw [hv]; exact hb.le
    have hψ : get_psi P F th x t 0 = x + t * bv := by
      rw [get_psi, ← hcell]
      simp [hab.1, hab.2]
    have hψgt : x < x + t * bv := by nlinarith
    by_cases hvalid : validB P F th ⟨x, t, 0, c⟩ = true
    · rw [loopP_of_valid P F th _ _ fuel hvalid]
      simp only [hψ]
    · have hfuel1 : ∃ fuel', fuel = fuel' + 1 := by
        cases fuel with
        | zero => omega
        | succ f => exact ⟨f, rfl⟩
      rcases hfuel1 with ⟨fuel', rfl⟩
      rw [loopP_succ, if_neg hvalid]
      have hpsigt : right_boundary P c < x + t * bv := by
        by_contra hle
        push_neg at hle
        refine hvalid ?_
        rw [validB_true_iff]
        refine .inl ⟨?_, ?_⟩ <;> rw [hψ]
        · linarith
        · exact hle
      have hhit : get_hit_time P F th x 0 = (right_boundary P c - x) / bv := by
        rw [get_hit_time, ← hcell]
        simp [hab.1, hab.2, hv, hb.le]
      have hupd : updP P F th ⟨x, t, 0, c⟩ =
          ⟨right_boundary P c, t - (right_boundary P c - x) / bv, 0, c + 1⟩ := by
        rw [updP]
        dsimp only
        rw [hψ, hhit, if_pos hv0, max_eq_left (by linarith),
          min_eq_right (by linarith)]
      rw [hupd]
      have ht' : 0 < t - (right_boundary P c - x) / bv := by
        have h2 : (right_boundary P c - x) / bv < t := by
          rw [div_lt_iff hb]
          nlinarith
        linarith
      have hcons : right_boundary P c + (t - (right_boundary P c - x) / bv) * bv
          = x + t * bv := by
        field_simp
        ring
      rw [ih (right_boundary P c) (t - (right_boundary P c - x) / bv) (c + 1) fuel'
        (get_cell_right_boundary P hl hnc heps c (by omega) (by omega)).symm
        (by omega) (by omega)
        (left_succ_le_right_boundary P c)
        (right_boundary_mono P hl hnc c)
        ht' (by omega) (by omega)]
      rw [hcons]

/-- The constant negative field pushes a point through successive left
boundaries, conserving x + t*b, until the first cell finalizes it. -/
theorem const_field_point_neg (P : Params K) (F : An K) (th : List (List K))
    (bv : K) (hl : P.xmin < P.xmax) (hnc : 0 < P.nc)
    (heps : (P.nc : K) * eps < P.xmax - P.xmin) (hb : bv < 0)
    (hconst : ∀ c : ℤ, 0 ≤ c → c ≤ (P.nc : ℤ) - 1 →
      coeff_a P th 0 c = 0 ∧ coeff_b P th 0 c = bv) :
    ∀ (m : ℕ) (x t : K) (c : ℤ) (fuel : ℕ),
    c = get_cell P x → 0 ≤ c → c ≤ (P.nc : ℤ) - 1 →
    left_boundary P c ≤ x → x ≤ right_boundary P c → 0 < t →
    c.toNat = m → m ≤ fuel →
    loopP P F th (fun q => get_psi P F th q.x q.t q.r) ⟨x, t, 0, c⟩ fuel =
      .ok (x + t * bv) := by
  intro m
  induction m with
  | zero =>
    intro x t c fuel hcell h0 h1 hxl hxr ht hm hfuel
    have hceq : c = 0 := by omega
    have hab := hconst c h0 h1
    have hv : get_velocity P th x 0 = bv := by
      rw [get_velocity, ← hcell, hab.1, hab.2]; ring
    have hψ : get_psi P F th x t 0 = x + t * bv := by
      rw [get_psi, ← hcell]
      simp [hab.1, hab.2]
    have hvalid : validB P F th ⟨x, t, 0, c⟩ = true := by
      rw [validB_true_iff]
      exact .inr (.inr ⟨by simpa [hv] using hb.le, hceq⟩)
    rw [loopP_of_valid P F th _ _ fuel hvalid]
    simp only [hψ]
  | succ m ih =>
    intro x t c fuel hcell h0 h1 hxl hxr ht hm hfuel
    have hcge : 1 ≤ c := by omega
    have hab := hconst c h0 h1
    have hv : get_velocity P th x 0 = bv := by
      rw [get_velocity, ← hcell, hab.1, hab.2]; ring
    have hvneg : ¬ (0 : K) ≤ get_velocity P th x 0 := by
      rw [hv]; exact not_le.mpr hb
    have hψ : get_psi P F th x t 0 = x + t * bv := by
      rw [get_psi, ← hcell]
      simp [hab.1, hab.2]
    have hψlt : x + t * bv < x := by nlinarith
    by_cases hvalid : validB P F th ⟨x, t, 0, c⟩ = true
    · rw [loopP_of_valid P F th _ _ fuel hvalid]
      simp only [hψ]
    · have hfuel1 : ∃ fuel', fuel = fuel' + 1 := by
        cases fuel with
        | zero => omega
        | succ f => exact ⟨f, rfl⟩
      rcases hfuel1 with ⟨fuel', rfl⟩
      rw [loopP_succ, if_neg hvalid]
      have hpsilt : x + t * bv < left_boundary P c := by
        by_contra hle
        push_neg at hle
        refine hvalid ?_
        rw [validB_true_iff]
        refine .inl ⟨?_, ?_⟩ <;> rw [hψ]
        · exact hle
        · linarith
      have hhit : get_hit_time P F th x 0 = (left_boundary P c - x) / bv := by
        rw [get_hit_time, ← hcell]
        simp [hab.1, hab.2, hv, not_le.mpr hb]
      have hupd : updP P F th ⟨x, t, 0, c⟩ =
          ⟨left_boundary P c, t - (left_boundary P c - x) / bv, 0, c - 1⟩ := by
        rw [updP]
        dsimp only
        rw [hψ, hhit, if_neg hvneg, max_eq_right (by linarith),
          min_eq_left (left_boundary_le_right P hl hnc c)]
      rw [hupd]
      have ht' : 0 < t - (left_boundary P c - x) / bv := by
        have h2 : (left_boundary P c - x) / bv < t := by
          rw [div_lt_iff_of_neg hb]
          nlinarith
        linarith
      have hcons : left_boundary P c + (t - (left_boundary P c - x) / bv) * bv
          = x + t * bv := by
        field_simp [hb.ne]
        ring
      rw [ih (left_boundary P c) (t - (left_boundary P c - x) / bv) (c - 1) fuel'
        (get_cell_left_boundary P hl hnc heps c (by omega) (by omega)).symm
        (by omega) (by omega)
        (left_boundary_mono P hl hnc c)
        (left_le_right_pred_boundary P c)
        ht' (by omega) (by omega)]
      rw [hcons]

theorem initPts_one (P : Params K) (xs : List K) :
    initPts P xs 1 = xs.map (fun x => ⟨x, 1, 0, get_cell P x⟩) := by
  simp [initPts, List.range_succ]

/-- C8: with the zero parameter vector every point batch is returned
unchanged; and for a field resolving to the constant velocity (a = 0, b) in
every cell, integration over unit time is the exact translation x + b for
every in-domain point batch. -/
theorem c8_stationary_field (P : Params K) (F : An K) (dθ : ℕ) (θrow : List K)
    (bv : K) (xs : List K) (hl : P.xmin < P.xmax) (hnc : 0 < P.nc)
    (heps : (P.nc : K) * eps < P.xmax - P.xmin)
    (hconst : ∀ c : ℤ, 0 ≤ c → c ≤ (P.nc : ℤ) - 1 →
      coeff_a P [θrow] 0 c = 0 ∧ coeff_b P [θrow] 0 c = bv)
    (hdom : ∀ x ∈ xs, P.xmin ≤ x ∧ x ≤ P.xmax) :
    (∀ ys : List K, integrate_closed_form P F ys [List.replicate dθ 0] = .ok ys) ∧
    integrate_closed_form P F xs [θrow] = .ok (xs.map (fun x => x + bv)) := by
  have hfuel : ∀ c : ℤ, 0 ≤ c → c ≤ (P.nc : ℤ) - 1 →
      ((P.nc : ℤ) - 1 - c).toNat ≤ P.nc ∧ c.toNat ≤ P.nc := by
    intro c h0 h1
    omega
  constructor
  · intro ys
    rw [integrate_closed_form_eq_mapE]
    have hone : ([List.replicate dθ (0 : K)]).length = 1 := by simp
    rw [hone, initPts_one, mapE_map]
    have hok := mapE_ok_of_all
      (fun x => loopP P F [List.replicate dθ 0]
        (fun q => get_psi P F [List.replicate dθ 0] q.x q.t q.r)
        ⟨x, 1, 0, get_cell P x⟩ P.nc)
      (fun x => x) ys
      (fun x _ => zero_field_point P F dθ hl hnc x 1 0 P.nc)
    rw [hok]
    simp
  · rw [integrate_closed_form_eq_mapE]
    have hone : ([θrow]).length = 1 := by simp
    rw [hone, initPts_one, mapE_map]
    rcases lt_trichotomy bv 0 with hb | hb | hb
    · have hok := mapE_ok_of_all
        (fun x => loopP P F [θrow]
          (fun q => get_psi P F [θrow] q.x q.t q.r) ⟨x, 1, 0, get_cell P x⟩ P.nc)
        (fun x => x + bv) xs
        (fun x hx => by
          dsimp only
          have hdx := hdom x hx
          have hcb := c7_cell_boundary_agreement P hl hnc x hdx.1 hdx.2
          have hcr := get_cell_range P hnc x
          have hrun := const_field_point_neg P F [θrow] bv hl hnc heps hb hconst
            (get_cell P x).toNat x 1 (get_cell P x) P.nc rfl hcr.1 hcr.2
            hcb.1 hcb.2 one_pos rfl (hfuel _ hcr.1 hcr.2).2
          rw [hrun, one_mul])
      rw [hok]
    · subst hb
      have hok := mapE_ok_of_all
        (fun x => loopP P F [θrow]
          (fun q => get_psi P F [θrow] q.x q.t q.r) ⟨x, 1, 0, get_cell P x⟩ P.nc)
        (fun x => x + 0) xs
        (fun x hx => by
          dsimp only
          have hdx := hdom x hx
          have hcb := c7_cell_boundary_agreement P hl hnc x hdx.1 hdx.2
          have hab := hconst (get_cell P x) (get_cell_range P hnc x).1
            (get_cell_range P hnc x).2
          have hψ : get_psi P F [θrow] x 1 0 = x := by
            rw [get_psi]
            simp [hab.1, hab.2]
          have hvalid : validB P F [θrow] ⟨x, 1, 0, get_cell P x⟩ = true := by
            rw [validB_true_iff]
            refine .inl ⟨?_, ?_⟩ <;> rw [hψ]
            · exact hcb.1
            · exact hcb.2
          rw [loopP_of_valid P F _ _ _ P.nc hvalid]
          simp only [hψ]
          norm_num)
      rw [hok]
    · have hok := mapE_ok_of_all
        (fun x => loopP P F [θrow]
          (fun q => get_psi P F [θrow] q.x q.t q.r) ⟨x, 1, 0, get_cell P x⟩ P.nc)
        (fun x => x + bv) xs
        (fun x hx => by
          dsimp only
          have hdx := hdom x hx
          have hcb := c7_cell_boundary_agreement P hl hnc x hdx.1 hdx.2
          have hcr := get_cell_range P hnc x
          have hrun := const_field_point_pos P F [θrow] bv hl hnc heps hb hconst
            ((P.nc : ℤ) - 1 - get_cell P x).toNat x 1 (get_cell P x) P.nc rfl
            hcr.1 hcr.2 hcb.1 hcb.2 one_pos rfl (hfuel _ hcr.1 hcr.2).1
          rw [hrun, one_mul])
      rw [hok]

/-- Witness for C8 on cfgQ: zero theta returns the batch unchanged, and the
constant field b = 1 translates the in-domain batch by one. -/
theorem c8_stationary_field_witness :
    (cfgQ.xmin < cfgQ.xmax ∧ 0 < cfgQ.nc ∧
      (cfgQ.nc : ℚ) * eps < cfgQ.xmax - cfgQ.xmin ∧
      (∀ c : ℤ, 0 ≤ c → c ≤ (cfgQ.nc : ℤ) - 1 →
        coeff_a cfgQ [[1]] 0 c = 0 ∧ coeff_b cfgQ [[1]] 0 c = 1) ∧
      (∀ x ∈ [(1 : ℚ) / 4, 1 / 2], cfgQ.xmin ≤ x ∧ x ≤ cfgQ.xmax)) ∧
    (∀ ys : List ℚ, integrate_closed_form cfgQ anQ ys [List.replicate 1 0] = .ok ys) ∧
    integrate_closed_form cfgQ anQ [1 / 4, 1 / 2] [[1]] =
      .ok (([(1 : ℚ) / 4, 1 / 2]).map (fun x => x + 1)) := by
  have hconst : ∀ c : ℤ, 0 ≤ c → c ≤ (cfgQ.nc : ℤ) - 1 →
      coeff_a cfgQ [[1]] 0 c = 0 ∧ coeff_b cfgQ [[1]] 0 c = 1 := by
    intro c h0 h1
    have hc : c = 0 ∨ c = 1 := by simp [cfgQ] at h1; omega
    rcases hc with rfl | rfl <;>
      norm_num [coeff_a, coeff_b, dotL, cfgQ, List.getD,
        show Int.toNat 2 = 2 from rfl]
  have hdom : ∀ x ∈ [(1 : ℚ) / 4, 1 / 2], cfgQ.xmin ≤ x ∧ x ≤ cfgQ.xmax := by
    intro x hx
    simp [cfgQ] at hx ⊢
    rcases hx with rfl | rfl <;> norm_num
  exact ⟨⟨by norm_num [cfgQ], by norm_num [cfgQ], by norm_num [cfgQ, eps], hconst, hdom⟩,
    c8_stationary_field cfgQ anQ 1 [1] 1 [1 / 4, 1 / 2] (by norm_num [cfgQ])
      (by norm_num [cfgQ]) (by norm_num [cfgQ, eps]) hconst hdom⟩

/-! ### The numeric (midpoint) integrator (C6) -/

theorem foldl_fixed (f : K → ℕ → K) : ∀ (l : List ℕ) (y : K),
    (∀ z i, f z i = z) → l.foldl f y = y := by
  intro l
  induction l with
  | nil => intro y _; rfl
  | cons a l ih =>
    intro y h
    rw [List.foldl_cons, h y a]
    exact ih y h

/-- C6 (amended): integrate_numeric advances each point by nSteps1 outer
steps, but an outer step is NOT always the nSteps2-sub-step midpoint update:
it is the closed-form psi whenever psi stays in the cell of xPrev, and only
falls back to the midpoint sub-steps when the cell changes.  On the zero
field the two coincide and the pure-midpoint reading of the spec holds. -/
theorem c6_numeric_step_shortcut (P : Params K) (F : An K) (th : List (List K))
    (xs : List K) (dθ : ℕ) :
    integrate_numeric P F xs th =
      (initPts P xs th.length).map (fun p =>
        (List.range P.nSteps1).foldl
          (fun y _ => integrate_numeric_step P F th (1 / (P.nSteps1 : K)) p.r y) p.x) ∧
    (∀ (dT y : K) (r : ℕ),
      integrate_numeric_step P F th dT r y =
        if get_cell P y = get_cell P (get_psi P F th y dT r)
        then get_psi P F th y dT r
        else get_phi_numeric P th y dT r) ∧
    integrate_numeric P F xs [List.replicate dθ 0] =
      integrate_numeric_midpoint P [List.replicate dθ 0] xs := by
  refine ⟨rfl, fun dT y r => rfl, ?_⟩
  rw [integrate_numeric, integrate_numeric_midpoint]
  refine List.map_congr_left (fun p hp => ?_)
  have hab := fun c => coeff_zero_theta P dθ p.r c
  have hv : ∀ y : K, get_velocity P [List.replicate dθ 0] y p.r = 0 := by
    intro y
    rw [get_velocity, (hab (get_cell P y)).1, (hab (get_cell P y)).2]
    ring
  have hψ : ∀ (y dT : K), get_psi P F [List.replicate dθ 0] y dT p.r = y := by
    intro y dT
    rw [get_psi]
    simp [(hab (get_cell P y)).1, (hab (get_cell P y)).2]
  have hmid : ∀ (y dT : K), get_phi_numeric P [List.replicate dθ 0] y dT p.r = y := by
    intro y dT
    rw [get_phi_numeric]
    refine foldl_fixed _ _ _ (fun z i => ?_)
    simp [hv]
  have hstep : ∀ y : K, integrate_numeric_step P F [List.replicate dθ 0]
      (1 / (P.nSteps1 : K)) p.r y = y := by
    intro y
    rw [integrate_numeric_step]
    simp [hψ]
  rw [foldl_fixed _ _ _ (fun z i => hstep z),
    foldl_fixed _ _ _ (fun z i => hmid z (1 / (P.nSteps1 : K)))]

/-- C6 counterexample: on the one-cell field v(x) = x with a single outer and
a single inner step, the outer step keeps the closed-form value
psi = exp(1)/2 (the cell is unchanged) instead of the midpoint update 5/4, so
integrate_numeric differs from the pure fixed-step midpoint method the claim
describes. -/
theorem c6_numeric_counterexample :
    integrate_numeric cfgR anR [1 / 2] [[1]] ≠
      integrate_numeric_midpoint cfgR [[1]] [1 / 2] := by
  have hcell : ∀ y : ℝ, get_cell cfgR y = 0 := by
    intro y
    rw [get_cell]
    have h1 : (0 : ℤ) ≤ max ⌊(y - cfgR.xmin) / (cfgR.xmax - cfgR.xmin) * (cfgR.nc : ℝ)⌋ 0 :=
      le_max_right _ 0
    have h2 : ((cfgR.nc : ℤ) - 1) = 0 := by norm_num [cfgR]
    rw [h2]
    omega
  have ha : coeff_a cfgR [[1]] 0 0 = 1 := by
    norm_num [coeff_a, dotL, cfgR, List.getD]
  have hb : coeff_b cfgR [[1]] 0 0 = 0 := by
    norm_num [coeff_b, dotL, cfgR, List.getD]
  have hv : ∀ y : ℝ, get_velocity cfgR [[1]] y 0 = y := by
    intro y
    rw [get_velocity, hcell, ha, hb]
    ring
  have hnum : integrate_numeric cfgR anR [1 / 2] [[1]] = [Real.exp 1 * (1 / 2)] := by
    rw [integrate_numeric]
    have hpts : initPts cfgR [(1 : ℝ) / 2] ([[(1 : ℝ)]]).length =
        [⟨1 / 2, 1, 0, get_cell cfgR (1 / 2)⟩] := by
      simp [initPts, List.range_succ]
    rw [hpts, List.map_cons, List.map_nil]
    have hone : cfgR.nSteps1 = 1 := rfl
    rw [hone]
    dsimp only
    simp only [List.range_succ, List.range_zero, List.nil_append,
      List.foldl_cons, List.foldl_nil]
    rw [integrate_numeric_step]
    rw [if_pos (by rw [hcell, hcell])]
    rw [get_psi, hcell, ha, hb, if_neg one_ne_zero]
    norm_num [anR]
  have hmid : integrate_numeric_midpoint cfgR [[1]] [1 / 2] = [(5 : ℝ) / 4] := by
    rw [integrate_numeric_midpoint]
    have hpts : initPts cfgR [(1 : ℝ) / 2] ([[(1 : ℝ)]]).length =
        [⟨1 / 2, 1, 0, get_cell cfgR (1 / 2)⟩] := by
      simp [initPts, List.range_succ]
    rw [hpts, List.map_cons, List.map_nil]
    have hone : cfgR.nSteps1 = 1 := rfl
    rw [hone]
    dsimp only
    simp only [List.range_succ, List.range_zero, List.nil_append,
      List.foldl_cons, List.foldl_nil]
    rw [get_phi_numeric]
    have htwo : cfgR.nSteps2 = 1 := rfl
    rw [htwo]
    simp only [List.range_succ, List.range_zero, List.nil_append,
      List.foldl_cons, List.foldl_nil]
    rw [hv, hv]
    norm_num
  rw [hnum, hmid]
  have hexp := Real.exp_one_gt_d9
  intro hcon
  rw [List.cons.injEq] at hcon
  nlinarith [hcon.1]

/-- C2 counterexample: in the concrete scenario xmin=0, xmax=1, nc=2, x=0.5,
constant field v=1 (theta=[1] through cfgQ's basis), the trace's recorded
exit time is the full remaining time 1 — no hit-time event was ever applied —
whereas one hit-time event at t_hit = right_boundary(1) - 0.5 would leave
exit time 1 - (right_boundary(1) - 0.5) ≠ 1. -/
theorem c2_scenario_counterexample :
    integrate_closed_form_trace cfgQ anQ [1 / 2] [[1]] = .ok [(3 / 2, 1, 1)] ∧
    (1 : ℚ) ≠ 1 - (right_boundary cfgQ 1 - 1 / 2) := by
  constructor
  · simp [integrate_closed_form_trace, initPts, loopRec, stepRec, validB, get_psi,
      get_velocity, coeff_a, coeff_b, dotL, get_cell, left_boundary, right_boundary,
      eps, cfgQ, anQ, maskWrite]
    norm_num
  · norm_num [right_boundary, cfgQ, eps]

/-- C2 (amended): in the concrete scenario, integrate_closed_form returns
phi = x + 1 = 1.5 (the unclamped flow continued past the domain edge), but
with ZERO hit-time events: x = 0.5 already lies in the last cell
(get_cell(0.5) = 1), so the edge-continuation rule (cond2) finalizes the point
in the very first iteration and the trace records (psi, t, c) = (1.5, 1, 1). -/
theorem c2_scenario :
    integrate_closed_form cfgQ anQ [1 / 2] [[1]] = .ok [3 / 2] ∧
    integrate_closed_form_trace cfgQ anQ [1 / 2] [[1]] = .ok [(3 / 2, 1, 1)] ∧
    get_cell cfgQ (1 / 2) = 1 ∧
    iterStep cfgQ anQ [[1]] (fun p => get_psi cfgQ anQ [[1]] p.x p.t p.r) 1
      ⟨[false], [0], initPts cfgQ [1 / 2] 1⟩ = .inl [3 / 2] := by
  refine ⟨?_, ?_, ?_, ?_⟩
  · simp [integrate_closed_form, initPts, loopRec, stepRec, validB, get_psi,
      get_velocity, coeff_a, coeff_b, dotL, get_cell, left_boundary, right_boundary,
      eps, cfgQ, anQ, maskWrite]
    norm_num
  · simp [integrate_closed_form_trace, initPts, loopRec, stepRec, validB, get_psi,
      get_velocity, coeff_a, coeff_b, dotL, get_cell, left_boundary, right_boundary,
      eps, cfgQ, anQ, maskWrite]
    norm_num
  · simp [get_cell, cfgQ]
  · simp [iterStep, initPts, stepRec, validB, get_psi, get_velocity, coeff_a,
      coeff_b, dotL, get_cell, left_boundary, right_boundary, eps, cfgQ, anQ, maskWrite]
    norm_num

/-- C4 counterexample: at the constant field a=0, b=1 of cfgQ (x=1/2, t=1),
the eager evaluation of get_psi's a≠0 lane performs the division b/a with
a == 0 — an invalid operation IS produced before the np.where select, refuting
masked-before-division evaluation. -/
theorem c4_eager_counterexample :
    (get_psi_eager cfgQ anQ [[1]] (1 / 2) 1 0).2 = true ∧
    coeff_a cfgQ [[1]] 0 (get_cell cfgQ (1 / 2)) = 0 := by
  constructor
  · simp [get_psi_eager, coeff_a, coeff_b, dotL, get_cell, cfgQ]
  · simp [coeff_a, dotL, get_cell, cfgQ]

/-- C4 (amended): the source selects AFTER computing both lanes eagerly (the
suppressed lane's division by a or by b is performed whenever a == 0 resp.
b == 0, under np.seterr suppression), but in the exact semantics the selected
value always equals the branch-guarded result, for get_psi and get_hit_time
alike — the invalid lane never contaminates the selected output. -/
theorem c4_eager_select_eq_guarded (P : Params K) (F : An K) (th : List (List K))
    (x t : K) (r : ℕ) :
    (get_psi_eager P F th x t r).1 = get_psi P F th x t r ∧
    ((get_psi_eager P F th x t r).2 = true ↔
      coeff_a P th r (get_cell P x) = 0) ∧
    (get_hit_time_eager P F th x r).1 = get_hit_time P F th x r ∧
    (coeff_a P th r (get_cell P x) = 0 → (get_hit_time_eager P F th x r).2 = true) := by
  refine ⟨rfl, by simp [get_psi_eager], rfl, ?_⟩
  intro h
  simp [get_hit_time_eager, h]

/-- Witness for C4's amended theorem: its only hypothesis is the implication's
antecedent, discharged at the concrete zero-slope input of cfgQ. -/
theorem c4_eager_select_eq_guarded_witness :
    (get_psi_eager cfgQ anQ [[1]] (1 / 2) 1 0).1 = get_psi cfgQ anQ [[1]] (1 / 2) 1 0 ∧
    ((get_psi_eager cfgQ anQ [[1]] (1 / 2) 1 0).2 = true ↔
      coeff_a cfgQ [[1]] 0 (get_cell cfgQ (1 / 2)) = 0) ∧
    (get_hit_time_eager cfgQ anQ [[1]] (1 / 2) 0).1 = get_hit_time cfgQ anQ [[1]] (1 / 2) 0 ∧
    (coeff_a cfgQ [[1]] 0 (get_cell cfgQ (1 / 2)) = 0 →
      (get_hit_time_eager cfgQ anQ [[1]] (1 / 2) 0).2 = true) :=
  c4_eager_select_eq_guarded cfgQ anQ [[1]] (1 / 2) 1 0

/-! ### Safety of the hit-time computation (C9) -/

theorem get_psi_eq (P : Params K) (F : An K) (th : List (List K)) (x t : K) (r : ℕ) :
    get_psi P F th x t r =
      if coeff_a P th r (get_cell P x) = 0
      then x + t * coeff_b P th r (get_cell P x)
      else F.exp (t * coeff_a P th r (get_cell P x)) *
          (x + coeff_b P th r (get_cell P x) / coeff_a P th r (get_cell P x)) -
        coeff_b P th r (get_cell P x) / coeff_a P th r (get_cell P x) := rfl

theorem get_hit_time_eq (P : Params K) (F : An K) (th : List (List K)) (x : K) (r : ℕ) :
    get_hit_time P F th x r =
      if coeff_a P th r (get_cell P x) = 0
      then ((if 0 ≤ get_velocity P th x r then right_boundary P (get_cell P x)
          else left_boundary P (get_cell P x)) - x) / coeff_b P th r (get_cell P x)
      else F.log (((if 0 ≤ get_velocity P th x r then right_boundary P (get_cell P x)
            else left_boundary P (get_cell P x)) +
            coeff_b P th r (get_cell P x) / coeff_a P th r (get_cell P x)) /
          (x + coeff_b P th r (get_cell P x) / coeff_a P th r (get_cell P x))) /
        coeff_a P th r (get_cell P x) := rfl

theorem get_velocity_eq (P : Params K) (th : List (List K)) (x : K) (r : ℕ) :
    get_velocity P th x r =
      coeff_a P th r (get_cell P x) * x + coeff_b P th r (get_cell P x) := rfl

/-- The core safety facts at a point that fails the validity test while its
tracked cell is consistent with its position: nonzero velocity, nonzero b in
the a = 0 branch, strictly positive log argument in the a != 0 branch, a hit
time below the remaining time, and the crossing direction of psi. -/
theorem hit_time_safety (P : Params ℝ) (th : List (List ℝ)) (p : Pt ℝ)
    (hcell : p.c = get_cell P p.x)
    (hxl : left_boundary P p.c ≤ p.x) (hxr : p.x ≤ right_boundary P p.c)
    (ht : 0 < p.t) (hnv : ¬ (validB P anR th p = true)) :
    get_velocity P th p.x p.r ≠ 0 ∧
    (coeff_a P th p.r (get_cell P p.x) = 0 → coeff_b P th p.r (get_cell P p.x) ≠ 0) ∧
    (coeff_a P th p.r (get_cell P p.x) ≠ 0 →
      0 < ((if 0 ≤ get_velocity P th p.x p.r then right_boundary P (get_cell P p.x)
            else left_boundary P (get_cell P p.x)) +
          coeff_b P th p.r (get_cell P p.x) / coeff_a P th p.r (get_cell P p.x)) /
        (p.x + coeff_b P th p.r (get_cell P p.x) / coeff_a P th p.r (get_cell P p.x))) ∧
    get_hit_time P anR th p.x p.r < p.t ∧
    (0 ≤ get_velocity P th p.x p.r →
      right_boundary P p.c < get_psi P anR th p.x p.t p.r) ∧
    (get_velocity P th p.x p.r < 0 →
      get_psi P anR th p.x p.t p.r < left_boundary P p.c) := by
  rw [validB_true_iff] at hnv
  push_neg at hnv
  obtain ⟨hn1, hn2, hn3⟩ := hnv
  set a := coeff_a P th p.r (get_cell P p.x) with ha_def
  set b := coeff_b P th p.r (get_cell P p.x) with hb_def
  set v := get_velocity P th p.x p.r with hv_def
  have hveq : v = a * p.x + b := get_velocity_eq P th p.x p.r
  have hexp_eq : ∀ y : ℝ, anR.exp y = Real.exp y := fun y => rfl
  have hlog_eq : ∀ y : ℝ, anR.log y = Real.log y := fun y => rfl
  -- nonzero velocity
  have hvne : v ≠ 0 := by
    intro hv0
    have hψx : get_psi P anR th p.x p.t p.r = p.x := by
      rw [get_psi_eq, ← ha_def, ← hb_def]
      by_cases hA : a = 0
      · rw [if_pos hA]
        have hb0 : b = 0 := by rw [hveq, hA] at hv0; linarith
        rw [hb0]; ring
      · rw [if_neg hA]
        have hu : p.x + b / a = 0 := by
          rw [hveq] at hv0
          field_simp
          linarith
        have hx0 : p.x = - (b / a) := by linarith
        rw [hu, hexp_eq]
        linarith [hx0]
    have := hn1 (by rw [hψx]; exact hxl)
    rw [hψx] at this
    linarith
  have hb_ne : a = 0 → b ≠ 0 := by
    intro hA hb0
    exact hvne (by rw [hveq, hA, hb0]; ring)
  rcases le_or_lt 0 v with hv0 | hv0
  · -- moving right
    have hvpos : 0 < v := lt_of_le_of_ne hv0 (Ne.symm hvne)
    have hψgt : p.x < get_psi P anR th p.x p.t p.r := by
      rw [get_psi_eq, ← ha_def, ← hb_def]
      by_cases hA : a = 0
      · rw [if_pos hA]
        have hbpos : 0 < b := by rw [hveq, hA] at hvpos; linarith
        nlinarith
      · rw [if_neg hA, hexp_eq]
        have hu : p.x + b / a = v / a := by rw [hveq]; field_simp; ring
        have hba : b / a = v / a - p.x := by linarith
        rw [hu, hba]
        rcases lt_or_gt_of_ne hA with haneg | hapos
        · have hexp : Real.exp (p.t * a) < 1 := by
            rw [Real.exp_lt_one_iff]; nlinarith
          have huneg : v / a < 0 := div_neg_of_pos_of_neg hvpos haneg
          nlinarith
        · have hexp : 1 < Real.exp (p.t * a) := by
            rw [Real.one_lt_exp_iff]; nlinarith
          have hupos : 0 < v / a := div_pos hvpos hapos
          nlinarith
    have hcross : right_boundary P p.c < get_psi P anR th p.x p.t p.r :=
      hn1 (le_trans hxl hψgt.le)
    have hhit_lt : get_hit_time P anR th p.x p.r < p.t := by
      rw [get_hit_time_eq, ← ha_def, ← hb_def, ← hv_def, if_pos hv0, ← hcell]
      by_cases hA : a = 0
      · rw [if_pos hA]
        have hbpos : 0 < b := by rw [hveq, hA] at hvpos; linarith
        rw [div_lt_iff hbpos]
        have hψ : get_psi P anR th p.x p.t p.r = p.x + p.t * b := by
          rw [get_psi_eq, ← ha_def, ← hb_def, if_pos hA]
        rw [hψ] at hcross
        linarith
      · rw [if_neg hA, hlog_eq]
        have hu : p.x + b / a = v / a := by rw [hveq]; field_simp; ring
        have hψ : get_psi P anR th p.x p.t p.r =
            Real.exp (p.t * a) * (p.x + b / a) - b / a := by
          rw [get_psi_eq, ← ha_def, ← hb_def, if_neg hA, hexp_eq]
        have hkey : right_boundary P p.c + b / a <
            Real.exp (p.t * a) * (p.x + b / a) := by
          rw [hψ] at hcross
          linarith
        rcases lt_or_gt_of_ne hA with haneg | hapos
        · have huneg : p.x + b / a < 0 := by
            rw [hu]; exact div_neg_of_pos_of_neg hvpos haneg
          have hwneg : right_boundary P p.c + b / a < 0 := by
            have := mul_neg_of_pos_of_neg (Real.exp_pos (p.t * a)) huneg
            linarith
          have hRpos : 0 < (right_boundary P p.c + b / a) / (p.x + b / a) :=
            div_pos_of_neg_of_neg hwneg huneg
          rw [div_lt_iff_of_neg haneg, Real.lt_log_iff_exp_lt hRpos,
            lt_div_iff_of_neg huneg]
          linarith
        · have hupos : 0 < p.x + b / a := by
            rw [hu]; exact div_pos hvpos hapos
          have hwpos : 0 < right_boundary P p.c + b / a := by linarith
          have hRpos : 0 < (right_boundary P p.c + b / a) / (p.x + b / a) :=
            div_pos hwpos hupos
          rw [div_lt_iff hapos, Real.log_lt_iff_lt_exp hRpos, div_lt_iff hupos]
          linarith
    refine ⟨hvne, hb_ne, ?_, hhit_lt, fun _ => hcross, fun hvlt => absurd hvlt (by linarith)⟩
    · intro hA
      rw [if_pos hv0, ← hcell]
      have hu : p.x + b / a = v / a := by rw [hveq]; field_simp; ring
      have hψ : get_psi P anR th p.x p.t p.r =
          Real.exp (p.t * a) * (p.x + b / a) - b / a := by
        rw [get_psi_eq, ← ha_def, ← hb_def, if_neg hA, hexp_eq]
      have hkey : right_boundary P p.c + b / a <
          Real.exp (p.t * a) * (p.x + b / a) := by
        rw [hψ] at hcross
        linarith
      rcases lt_or_gt_of_ne hA with haneg | hapos
      · have huneg : p.x + b / a < 0 := by
          rw [hu]; exact div_neg_of_pos_of_neg hvpos haneg
        have hwneg : right_boundary P p.c + b / a < 0 := by
          have := mul_neg_of_pos_of_neg (Real.exp_pos (p.t * a)) huneg
          linarith
        exact div_pos_of_neg_of_neg hwneg huneg
      · have hupos : 0 < p.x + b / a := by
          rw [hu]; exact div_pos hvpos hapos
        have hwpos : 0 < right_boundary P p.c + b / a := by linarith
        exact div_pos hwpos hupos
  · -- moving left
    have hψlt : get_psi P anR th p.x p.t p.r < p.x := by
      rw [get_psi_eq, ← ha_def, ← hb_def]
      by_cases hA : a = 0
      · rw [if_pos hA]
        have hbneg : b < 0 := by rw [hveq, hA] at hv0; linarith
        nlinarith
      · rw [if_neg hA, hexp_eq]
        have hu : p.x + b / a = v / a := by rw [hveq]; field_simp; ring
        have hba : b / a = v / a - p.x := by linarith
        rw [hu, hba]
        rcases lt_or_gt_of_ne hA with haneg | hapos
        · have hexp : Real.exp (p.t * a) < 1 := by
            rw [Real.exp_lt_one_iff]; nlinarith
          have hupos : 0 < v / a := div_pos_of_neg_of_neg hv0 haneg
          nlinarith
        · have hexp : 1 < Real.exp (p.t * a) := by
            rw [Real.one_lt_exp_iff]; nlinarith
          have huneg : v / a < 0 := div_neg_of_neg_of_pos hv0 hapos
          nlinarith
    have hcross : get_psi P anR th p.x p.t p.r < left_boundary P p.c := by
      by_contra hle
      push_neg at hle
      have := hn1 hle
      linarith
    have hnv0 : ¬ (0 ≤ v) := not_le.mpr hv0
    have hhit_lt : get_hit_time P anR th p.x p.r < p.t := by
      rw [get_hit_time_eq, ← ha_def, ← hb_def, ← hv_def, if_neg hnv0, ← hcell]
      by_cases hA : a = 0
      · rw [if_pos hA]
        have hbneg : b < 0 := by rw [hveq, hA] at hv0; linarith
        rw [div_lt_iff_of_neg hbneg]
        have hψ : get_psi P anR th p.x p.t p.r = p.x + p.t * b := by
          rw [get_psi_eq, ← ha_def, ← hb_def, if_pos hA]
        rw [hψ] at hcross
        linarith
      · rw [if_neg hA, hlog_eq]
        have hu : p.x + b / a = v / a := by rw [hveq]; field_simp; ring
        have hψ : get_psi P anR th p.x p.t p.r =
            Real.exp (p.t * a) * (p.x + b / a) - b / a := by
          rw [get_psi_eq, ← ha_def, ← hb_def, if_neg hA, hexp_eq]
        have hkey : Real.exp (p.t * a) * (p.x + b / a) <
            left_boundary P p.c + b / a := by
          rw [hψ] at hcross
          linarith
        rcases lt_or_gt_of_ne hA with haneg | hapos
        · have hupos : 0 < p.x + b / a := by
            rw [hu]; exact div_pos_of_neg_of_neg hv0 haneg
          have hwpos : 0 < left_boundary P p.c + b / a := by
            have := mul_pos (Real.exp_pos (p.t * a)) hupos
            linarith
          have hRpos : 0 < (left_boundary P p.c + b / a) / (p.x + b / a) :=
            div_pos hwpos hupos
          rw [div_lt_iff_of_neg haneg, Real.lt_log_iff_exp_lt hRpos,
            lt_div_iff hupos]
          linarith
        · have huneg : p.x + b / a < 0 := by
            rw [hu]; exact div_neg_of_neg_of_pos hv0 hapos
          have hwneg : left_boundary P p.c + b / a < 0 := by linarith
          have hRpos : 0 < (left_boundary P p.c + b / a) / (p.x + b / a) :=
            div_pos_of_neg_of_neg hwneg huneg
          rw [div_lt_iff hapos, Real.log_lt_iff_lt_exp hRpos,
            div_lt_iff_of_neg huneg]
          linarith
    refine ⟨hvne, hb_ne, ?_, hhit_lt, fun hge => absurd hge hnv0, fun _ => hcross⟩
    · intro hA
      rw [if_neg hnv0, ← hcell]
      have hu : p.x + b / a = v / a := by rw [hveq]; field_simp; ring
      have hψ : get_psi P anR th p.x p.t p.r =
          Real.exp (p.t * a) * (p.x + b / a) - b / a := by
        rw [get_psi_eq, ← ha_def, ← hb_def, if_neg hA, hexp_eq]
      have hkey : Real.exp (p.t * a) * (p.x + b / a) <
          left_boundary P p.c + b / a := by
        rw [hψ] at hcross
        linarith
      rcases lt_or_gt_of_ne hA with haneg | hapos
      · have hupos : 0 < p.x + b / a := by
          rw [hu]; exact div_pos_of_neg_of_neg hv0 haneg
        have hwpos : 0 < left_boundary P p.c + b / a := by
          have := mul_pos (Real.exp_pos (p.t * a)) hupos
          linarith
        exact div_pos hwpos hupos
      · have huneg : p.x + b / a < 0 := by
          rw [hu]; exact div_neg_of_neg_of_pos hv0 hapos
        have hwneg : left_boundary P p.c + b / a < 0 := by linarith
        exact div_pos_of_neg_of_neg hwneg huneg

/-- The loop invariant (tracked cell in range and consistent with the
position, position within the tracked cell's widened bounds, positive
remaining time) is preserved by the update of an invalid point. -/
theorem inv_step (P : Params ℝ) (th : List (List ℝ)) (p : Pt ℝ)
    (hl : P.xmin < P.xmax) (hnc : 0 < P.nc)
    (heps : (P.nc : ℝ) * eps < P.xmax - P.xmin)
    (h0 : 0 ≤ p.c) (h1 : p.c ≤ (P.nc : ℤ) - 1) (hcell : p.c = get_cell P p.x)
    (hxl : left_boundary P p.c ≤ p.x) (hxr : p.x ≤ right_boundary P p.c)
    (ht : 0 < p.t) (hnv : ¬ (validB P anR th p = true)) :
    0 ≤ (updP P anR th p).c ∧ (updP P anR th p).c ≤ (P.nc : ℤ) - 1 ∧
    (updP P anR th p).c = get_cell P (updP P anR th p).x ∧
    left_boundary P (updP P anR th p).c ≤ (updP P anR th p).x ∧
    (updP P anR th p).x ≤ right_boundary P (updP P anR th p).c ∧
    0 < (updP P anR th p).t := by
  have hsafe := hit_time_safety P th p hcell hxl hxr ht hnv
  have helim := validB_false_elim P anR th p hnv
  rcases le_or_lt 0 (get_velocity P th p.x p.r) with hv0 | hv0
  · have hcross := hsafe.2.2.2.2.1 hv0
    have hcne : p.c ≠ (P.nc : ℤ) - 1 := fun hc => helim.1 ⟨hv0, hc⟩
    have hupd : updP P anR th p =
        ⟨right_boundary P p.c, p.t - get_hit_time P anR th p.x p.r, p.r, p.c + 1⟩ := by
      rw [updP]
      rw [if_pos hv0,
        max_eq_left (le_trans (left_boundary_le_right P hl hnc p.c) hcross.le),
        min_eq_right hcross.le]
    rw [hupd]
    refine ⟨show (0 : ℤ) ≤ p.c + 1 by omega, show p.c + 1 ≤ (P.nc : ℤ) - 1 by omega,
      ?_, ?_, ?_, ?_⟩
    · exact (get_cell_right_boundary P hl hnc heps p.c (by omega) (by omega)).symm
    · exact left_succ_le_right_boundary P p.c
    · exact right_boundary_mono P hl hnc p.c
    · show 0 < p.t - get_hit_time P anR th p.x p.r
      have := hsafe.2.2.2.1
      linarith
  · have hcross := hsafe.2.2.2.2.2 hv0
    have hcne : p.c ≠ 0 := fun hc => helim.2 ⟨hv0.le, hc⟩
    have hnv0 : ¬ (0 ≤ get_velocity P th p.x p.r) := not_le.mpr hv0
    have hupd : updP P anR th p =
        ⟨left_boundary P p.c, p.t - get_hit_time P anR th p.x p.r, p.r, p.c - 1⟩ := by
      rw [updP]
      rw [if_neg hnv0, max_eq_right hcross.le,
        min_eq_left (left_boundary_le_right P hl hnc p.c)]
    rw [hupd]
    refine ⟨show (0 : ℤ) ≤ p.c - 1 by omega, show p.c - 1 ≤ (P.nc : ℤ) - 1 by omega,
      ?_, ?_, ?_, ?_⟩
    · exact (get_cell_left_boundary P hl hnc heps p.c (by omega) (by omega)).symm
    · exact left_boundary_mono P hl hnc p.c
    · exact left_le_right_pred_boundary P p.c
    · show 0 < p.t - get_hit_time P anR th p.x p.r
      have := hsafe.2.2.2.1
      linarith

/-- The invariant holds at every still-active state reachable from an
in-domain initial point. -/
theorem inv_run (P : Params ℝ) (th : List (List ℝ))
    (hl : P.xmin < P.xmax) (hnc : 0 < P.nc)
    (heps : (P.nc : ℝ) * eps < P.xmax - P.xmin) :
    ∀ (n : ℕ) (p q : Pt ℝ),
    0 ≤ p.c → p.c ≤ (P.nc : ℤ) - 1 → p.c = get_cell P p.x →
    left_boundary P p.c ≤ p.x → p.x ≤ right_boundary P p.c → 0 < p.t →
    runP P anR th n p = some q →
    0 ≤ q.c ∧ q.c ≤ (P.nc : ℤ) - 1 ∧ q.c = get_cell P q.x ∧
    left_boundary P q.c ≤ q.x ∧ q.x ≤ right_boundary P q.c ∧ 0 < q.t := by
  intro n
  induction n with
  | zero =>
    intro p q h0 h1 hcell hxl hxr ht hrun
    rw [runP] at hrun
    cases hrun
    exact ⟨h0, h1, hcell, hxl, hxr, ht⟩
  | succ n ih =>
    intro p q h0 h1 hcell hxl hxr ht hrun
    rw [runP] at hrun
    by_cases hv : validB P anR th p = true
    · rw [if_pos hv] at hrun
      cases hrun
    · rw [if_neg hv] at hrun
      have hstep := inv_step P th p hl hnc heps h0 h1 hcell hxl hxr ht hv
      exact ih (updP P anR th p) q hstep.1 hstep.2.1 hstep.2.2.1
        hstep.2.2.2.1 hstep.2.2.2.2.1 hstep.2.2.2.2.2 hrun

/-- C9 (implicit): along any run of the cell-hopping loop started at an
in-domain point (sane parameters: xmin < xmax, 0 < nc, nc*eps < xmax - xmin),
every point that fails the validity test and therefore reaches the hit-time
computation has nonzero velocity; in the a = 0 branch b is nonzero, and in
the a != 0 branch the argument of the logarithm is strictly positive — the
hit time computed for still-active points is always finite and well-defined. -/
theorem c9_hit_time_well_defined (P : Params ℝ) (th : List (List ℝ))
    (x0 : ℝ) (r : ℕ) (n : ℕ) (p : Pt ℝ)
    (hl : P.xmin < P.xmax) (hnc : 0 < P.nc)
    (heps : (P.nc : ℝ) * eps < P.xmax - P.xmin)
    (hx0l : P.xmin ≤ x0) (hx0r : x0 ≤ P.xmax)
    (hrun : runP P anR th n ⟨x0, 1, r, get_cell P x0⟩ = some p)
    (hnv : ¬ (validB P anR th p = true)) :
    get_velocity P th p.x p.r ≠ 0 ∧
    (coeff_a P th p.r (get_cell P p.x) = 0 → coeff_b P th p.r (get_cell P p.x) ≠ 0) ∧
    (coeff_a P th p.r (get_cell P p.x) ≠ 0 →
      0 < ((if 0 ≤ get_velocity P th p.x p.r then right_boundary P (get_cell P p.x)
            else left_boundary P (get_cell P p.x)) +
          coeff_b P th p.r (get_cell P p.x) / coeff_a P th p.r (get_cell P p.x)) /
        (p.x + coeff_b P th p.r (get_cell P p.x) / coeff_a P th p.r (get_cell P p.x))) ∧
    get_hit_time P anR th p.x p.r < p.t := by
  have hcb := c7_cell_boundary_agreement P hl hnc x0 hx0l hx0r
  have hcr := get_cell_range P hnc x0
  have hinv := inv_run P th hl hnc heps n ⟨x0, 1, r, get_cell P x0⟩ p
    hcr.1 hcr.2 rfl hcb.1 hcb.2 one_pos hrun
  have hsafe := hit_time_safety P th p hinv.2.2.1 hinv.2.2.2.1
    hinv.2.2.2.2.1 hinv.2.2.2.2.2 hnv
  exact ⟨hsafe.1, hsafe.2.1, hsafe.2.2.1, hsafe.2.2.2.1⟩

/-- Witness for C9: the constant field b = 1 on three cells, at x0 = 1/4 with
n = 0 update rounds; the validity test fails and the theorem yields the
safety facts at that state. -/
theorem c9_hit_time_well_defined_witness :
    (cfgR3.xmin < cfgR3.xmax ∧ 0 < cfgR3.nc ∧
      (cfgR3.nc : ℝ) * eps < cfgR3.xmax - cfgR3.xmin ∧
      cfgR3.xmin ≤ (1 / 4 : ℝ) ∧ (1 / 4 : ℝ) ≤ cfgR3.xmax ∧
      runP cfgR3 anR [[1]] 0 ⟨1 / 4, 1, 0, get_cell cfgR3 (1 / 4)⟩ =
        some ⟨1 / 4, 1, 0, get_cell cfgR3 (1 / 4)⟩ ∧
      ¬ (validB cfgR3 anR [[1]] ⟨1 / 4, 1, 0, get_cell cfgR3 (1 / 4)⟩ = true)) ∧
    get_velocity cfgR3 [[1]] (1 / 4 : ℝ) 0 ≠ 0 := by
  have hcell : get_cell cfgR3 (1 / 4 : ℝ) = 0 := by
    rw [get_cell]
    have hfl : ⌊((1 : ℝ) / 4 - cfgR3.xmin) / (cfgR3.xmax - cfgR3.xmin) * (cfgR3.nc : ℝ)⌋ = 0 := by
      rw [Int.floor_eq_iff]
      norm_num [cfgR3]
    rw [hfl]
    norm_num [cfgR3]
  have ha : coeff_a cfgR3 [[1]] 0 0 = 0 := by
    norm_num [coeff_a, dotL, cfgR3, List.getD]
  have hb : coeff_b cfgR3 [[1]] 0 0 = 1 := by
    norm_num [coeff_b, dotL, cfgR3, List.getD]
  have hv : get_velocity cfgR3 [[1]] (1 / 4 : ℝ) 0 = 1 := by
    rw [get_velocity_eq, hcell, ha, hb]
    ring
  have hψ : get_psi cfgR3 anR [[1]] (1 / 4 : ℝ) 1 0 = 5 / 4 := by
    rw [get_psi_eq, hcell, ha, hb]
    norm_num
  have hnv : ¬ (validB cfgR3 anR [[1]] ⟨1 / 4, 1, 0, get_cell cfgR3 (1 / 4)⟩ = true) := by
    rw [validB_true_iff]
    push_neg
    refine ⟨?_, ?_, ?_⟩
    · intro _
      dsimp only
      rw [hcell, hψ, right_boundary]
      norm_num [cfgR3, eps]
    · intro _
      dsimp only
      rw [hcell]
      norm_num [cfgR3]
    · intro hvle
      dsimp only at hvle
      rw [hv] at hvle
      norm_num at hvle
  have hrun : runP cfgR3 anR [[1]] 0 ⟨1 / 4, 1, 0, get_cell cfgR3 (1 / 4)⟩ =
      some ⟨1 / 4, 1, 0, get_cell cfgR3 (1 / 4)⟩ := rfl
  refine ⟨⟨by norm_num [cfgR3], by norm_num [cfgR3], by norm_num [cfgR3, eps],
    by norm_num [cfgR3], by norm_num [cfgR3], hrun, hnv⟩, ?_⟩
  exact (c9_hit_time_well_defined cfgR3 [[1]] (1 / 4) 0 0
    ⟨1 / 4, 1, 0, get_cell cfgR3 (1 / 4)⟩ (by norm_num [cfgR3]) (by norm_num [cfgR3])
    (by norm_num [cfgR3, eps]) (by norm_num [cfgR3]) (by norm_num [cfgR3])
    hrun hnv).1

/-- C5 counterexample: with a basis matrix of 6 rows against nc = 2 (a shape
mismatch between B and the cell grid), integrate_closed_form silently performs
the numeric work and returns a value — no DomainMismatch error is reported at
entry. -/
theorem c5_no_validation_counterexample :
    cfgMM.B.length ≠ 2 * cfgMM.nc ∧
    integrate_closed_form cfgMM anQ [1 / 2] [[0]] = .ok [1 / 2] := by
  constructor
  · simp [cfgMM]
  · simp [integrate_closed_form, initPts, loopRec, stepRec, validB, get_psi,
      get_velocity, coeff_a, coeff_b, dotL, get_cell, left_boundary, right_boundary,
      eps, cfgMM, anQ, maskWrite]

end Cpab
